import Mathlib

/-!
Verification development for the IOC extraction pipeline
(`src/model/ioc_parser_v21_fixed.py`), the report generator
(`src/model/report_generator.py`) and the default configuration
(`src/model/config_manager.py`).

The Python code is shallowly embedded: text buffers are `List Char`,
Python dicts are insertion-ordered association lists, and each hard-coded
regular expression of the source is translated into a deterministic
matcher whose determinisation from the backtracking semantics of Python
`re` is justified in the comment next to it.  Exceptions raised by
`re.findall` on a malformed configured pattern are modelled with
`Except`: an `Except.error` result of the pipeline corresponds to an
uncaught Python exception aborting the extraction run.
-/

/-! ## Python primitives on character lists -/

/-- Python whitespace (`str.strip`, `\s`), ASCII range. -/
def isPyWs (c : Char) : Bool :=
  c = ' ' || c = '\t' || c = '\n' || c = '\r' || c = '\x0b' || c = '\x0c'

def isAsciiLower (c : Char) : Bool := 'a' ≤ c && c ≤ 'z'

def isAsciiUpper (c : Char) : Bool := 'A' ≤ c && c ≤ 'Z'

def isAsciiAlpha (c : Char) : Bool := isAsciiLower c || isAsciiUpper c

def isAsciiDigit (c : Char) : Bool := '0' ≤ c && c ≤ '9'

def isAsciiAlnum (c : Char) : Bool := isAsciiAlpha c || isAsciiDigit c

/-- `[a-fA-F0-9]`. -/
def isHexDig (c : Char) : Bool :=
  isAsciiDigit c || ('a' ≤ c && c ≤ 'f') || ('A' ≤ c && c ≤ 'F')

/-- Python `\w` (`re.UNICODE`): ASCII alphanumerics, underscore, and other
Unicode letters; of the latter we cover the Cyrillic block, which is the
alphabet actually occurring in this repository's documents. -/
def isWordCh (c : Char) : Bool :=
  isAsciiAlnum c || c = '_' || (Char.ofNat 0x400 ≤ c && c ≤ Char.ofNat 0x4FF)

/-- Python `str.lower`, character-wise, covering ASCII and Cyrillic. -/
def pyLowerCh (c : Char) : Char :=
  if isAsciiUpper c then Char.ofNat (c.toNat + 32)
  else if Char.ofNat 0x410 ≤ c && c ≤ Char.ofNat 0x42F then Char.ofNat (c.toNat + 32)
  else if c = Char.ofNat 0x401 then Char.ofNat 0x451
  else c

def pyLower (s : List Char) : List Char := s.map pyLowerCh

/-- Python `str.strip()`. -/
def pyStrip (s : List Char) : List Char :=
  ((s.dropWhile isPyWs).reverse.dropWhile isPyWs).reverse

/-- Python `str.rstrip()`. -/
def pyRstrip (s : List Char) : List Char :=
  (s.reverse.dropWhile isPyWs).reverse

/-- Python `str.strip('/')` (used on URL paths). -/
def stripSlashes (s : List Char) : List Char :=
  ((s.dropWhile (· = '/')).reverse.dropWhile (· = '/')).reverse

/-- `re.sub(r'\s+', ' ', s)`: each maximal whitespace run becomes one space. -/
def collapseWs : List Char → List Char
  | [] => []
  | c :: cs =>
    if isPyWs c then ' ' :: collapseWs (cs.dropWhile isPyWs)
    else c :: collapseWs cs
termination_by s => s.length
decreasing_by
  · simp only [List.length_cons]
    exact Nat.lt_succ_of_le (List.dropWhile_sublist isPyWs).length_le
  · simp

/-- Python `str.replace(pat, rep)`: all non-overlapping occurrences,
scanning left to right.  (`pat` is never empty at the call sites.) -/
def pyReplace (s pat rep : List Char) : List Char :=
  match s with
  | [] => []
  | c :: rest =>
    if pat ≠ [] ∧ pat.isPrefixOf (c :: rest) then
      rep ++ pyReplace ((c :: rest).drop pat.length) pat rep
    else c :: pyReplace rest pat rep
termination_by s.length
decreasing_by
  · rename_i h
    simp only [List.length_drop, List.length_cons]
    have hp : 1 ≤ pat.length := by
      cases hpat : pat with
      | nil => exact absurd hpat h.1
      | cons a l => simp
    omega
  · simp

/-- Python `str.find(sub)` as an `Option`: index of the first occurrence. -/
def findSub (s pat : List Char) : Option Nat :=
  if pat.isPrefixOf s then some 0
  else
    match s with
    | [] => none
    | _ :: rest => (findSub rest pat).map (· + 1)
termination_by s.length

/-- A run of `n` spaces (the blanking filler `' ' * n`). -/
def spaces (n : Nat) : List Char := List.replicate n ' '

/-- Python `set(matches)` followed by iteration: modelled as
first-occurrence deduplication.  (CPython iterates a set in an
unspecified, hash-based order; every property proved below is
insensitive to that order, and concrete evaluations only involve sets
of at most one element per category.) -/
def pySet : List (List Char) → List (List Char)
  | [] => []
  | a :: l => a :: pySet (l.filter (· ≠ a))
termination_by s => s.length
decreasing_by
  simp only [List.length_cons]
  exact Nat.lt_succ_of_le (List.length_filter_le _ l)

/-- Python string `<=` (lexicographic on code points). -/
def lexLe : List Char → List Char → Bool
  | [], _ => true
  | _ :: _, [] => false
  | a :: as, b :: bs =>
    if a = b then lexLe as bs else decide (a < b)

/-- Stable insertion used by `sorted(..., key=lambda x: x[0])`: an element
is placed after all existing elements whose key is less than or equal. -/
def insertByFst (p : (List Char) × (List Char)) :
    List ((List Char) × (List Char)) → List ((List Char) × (List Char))
  | [] => [p]
  | q :: rest => if lexLe q.1 p.1 then q :: insertByFst p rest else p :: q :: rest

/-- Python `sorted(pairs, key=lambda x: x[0])` (stable, ascending). -/
def sortPairsByFst (l : List ((List Char) × (List Char))) :
    List ((List Char) × (List Char)) :=
  l.foldl (fun acc p => insertByFst p acc) []

/-! ## Insertion-ordered dictionaries (Python `dict`) -/

/-- A Python `dict`: an association list in key-insertion order. -/
abbrev PyDict (κ α : Type) := List (κ × α)

/-- `d[k] = v`. -/
def dset [DecidableEq κ] : PyDict κ α → κ → α → PyDict κ α
  | [], k, v => [(k, v)]
  | (k', v') :: rest, k, v =>
    if k' = k then (k, v) :: rest else (k', v') :: dset rest k v

/-- `d.get(k)` / `d[k]`. -/
def dget [DecidableEq κ] (d : PyDict κ α) (k : κ) : Option α :=
  (d.find? (fun p => p.1 = k)).map (·.2)

/-- `k in d`. -/
def dmem [DecidableEq κ] (d : PyDict κ α) (k : κ) : Bool :=
  (dget d k).isSome

/-- `if k not in d: d[k] = []` followed by `d[k].extend(vs)`. -/
def dextend [DecidableEq κ] (d : PyDict κ (List α)) (k : κ) (vs : List α) :
    PyDict κ (List α) :=
  match dget d k with
  | some old => dset d k (old ++ vs)
  | none => dset d k vs

/-! ## The deobfuscator `IOCParser.clean_ioc` -/

/-- Host class `[a-zA-Z0-9.-]` of the port-stripping pattern. -/
def hostCls (c : Char) : Bool := isAsciiAlnum c || c = '.' || c = '-'

/-- `re.match(r'^(https?://)([a-zA-Z0-9.-]+)(:\d+)(/.*)?$', s)`, returning
the groups `(protocol, host, path or '')`.  The backtracking pattern is
deterministic here: the host class contains neither `:` nor `/`, so the
greedy host run cannot be shortened to reach a `:` earlier, and the digit
run of the port likewise; `.` does not match a newline and `$` also
matches just before a final newline, which the regex engine drops from
the optional path group. -/
def portAfterColon (proto host r2 : List Char) :
    Option (List Char × List Char × List Char) :=
  let port := r2.takeWhile isAsciiDigit
  if port = [] then none
  else
    let t := r2.drop port.length
    if t = [] then some (proto, host, [])
    else if t = ['\n'] then some (proto, host, [])
    else if t.head? = some '/' then
      let core := if t.getLast? = some '\n' then t.dropLast else t
      if '\n' ∈ core then none else some (proto, host, core)
    else none

def afterHost (proto host : List Char) :
    List Char → Option (List Char × List Char × List Char)
  | a :: r2 => if a = ':' then portAfterColon proto host r2 else none
  | [] => none

def portMatch (s : List Char) : Option (List Char × List Char × List Char) :=
  let (proto, r1) :=
    if ("https://".data).isPrefixOf s then ("https://".data, s.drop 8)
    else if ("http://".data).isPrefixOf s then ("http://".data, s.drop 7)
    else ([], s)
  if proto = [] then none
  else
    let host := r1.takeWhile hostCls
    if host = [] then none
    else afterHost proto host (r1.drop host.length)

/-- `if '://' in cleaned: cleaned = 'http' + cleaned[cleaned.find('://'):]`. -/
def schemeFix (s : List Char) : List Char :=
  match findSub s ("://".data) with
  | some i => "http".data ++ s.drop i
  | none => s

/-- The port-stripping rewrite `f"{protocol}{host}{path or ''}"`. -/
def portStrip (s : List Char) : List Char :=
  match portMatch s with
  | some (proto, host, path) => proto ++ host ++ path
  | none => s

/-- `IOCParser.clean_ioc` (static method of
`src/model/ioc_parser_v21_fixed.py`). -/
def clean_ioc (ioc : List Char) (ioc_type : String) : List Char :=
  let c0 := pyStrip ioc
  let c1 := if ioc_type = "File" then collapseWs c0 else c0
  let c2 := pyReplace c1 ("[.]".data) (".".data)
  let c3 := pyReplace c2 ("[:]".data) (":".data)
  let c4 := pyReplace c3 ("[".data) []
  let c5 := pyReplace c4 ("]".data) []
  if ioc_type = "URI" then portStrip (schemeFix c5) else c5

/-! ## Matchers for the hard-coded regular expressions -/

/-- Maximal runs of word characters, in order of occurrence. -/
def wordRuns : List Char → List (List Char)
  | [] => []
  | c :: cs =>
    if isWordCh c then
      (c :: cs.takeWhile isWordCh) :: wordRuns (cs.dropWhile isWordCh)
    else wordRuns cs
termination_by s => s.length
decreasing_by
  · simp only [List.length_cons]
    exact Nat.lt_succ_of_le (List.dropWhile_sublist isWordCh).length_le
  · simp

/-- `re.findall(r'\b[a-fA-F0-9]{n}\b', text)`: hex digits are word
characters, so both `\b` anchors force the match to be a maximal word
run; the matches are exactly the maximal word runs of length `n` made of
hex digits, in order of occurrence (with repetitions). -/
def hexTokens (n : Nat) (text : List Char) : List (List Char) :=
  (wordRuns text).filter (fun r => r.length = n && r.all isHexDig)

/-- Candidate lengths for one octet
`(?:25[0-5]|2[0-4][0-9]|[01]?[0-9][0-9]?)`, in the engine's backtracking
priority order (alternatives left to right; inside the third one the
optional pieces are greedy). -/
def octetCands (cs : List Char) : List Nat :=
  (match cs with
   | '2' :: '5' :: d :: _ => if '0' ≤ d && d ≤ '5' then [3] else []
   | _ => []) ++
  (match cs with
   | '2' :: d1 :: d2 :: _ => if '0' ≤ d1 && d1 ≤ '4' && isAsciiDigit d2 then [3] else []
   | _ => []) ++
  (match cs with
   | d0 :: d1 :: d2 :: _ =>
     if (d0 = '0' || d0 = '1') && isAsciiDigit d1 && isAsciiDigit d2 then [3] else []
   | _ => []) ++
  (match cs with
   | d0 :: d1 :: _ => if (d0 = '0' || d0 = '1') && isAsciiDigit d1 then [2] else []
   | _ => []) ++
  (match cs with
   | d0 :: d1 :: _ => if isAsciiDigit d0 && isAsciiDigit d1 then [2] else []
   | _ => []) ++
  (match cs with
   | d0 :: _ => if isAsciiDigit d0 then [1] else []
   | _ => [])

/-- Candidate lengths for one separator `(?:\[\.\]|\.)`, priority order. -/
def sepCands (cs : List Char) : List Nat :=
  (match cs with
   | '[' :: '.' :: ']' :: _ => [3]
   | _ => []) ++
  (match cs with
   | '.' :: _ => [1]
   | _ => [])

/-- Backtracking match of the IP pattern
`(?:(?:octet)(?:sep)){3}(?:octet)` at the current position (no word
boundaries in this pattern); returns the length of the first match in
priority order. -/
def ipMatchAt (cs : List Char) : Option Nat :=
  (octetCands cs).findSome? fun o1 =>
    (sepCands (cs.drop o1)).findSome? fun s1 =>
      (octetCands (cs.drop (o1 + s1))).findSome? fun o2 =>
        (sepCands (cs.drop (o1 + s1 + o2))).findSome? fun s2 =>
          (octetCands (cs.drop (o1 + s1 + o2 + s2))).findSome? fun o3 =>
            (sepCands (cs.drop (o1 + s1 + o2 + s2 + o3))).findSome? fun s3 =>
              (octetCands (cs.drop (o1 + s1 + o2 + s2 + o3 + s3))).findSome? fun o4 =>
                some (o1 + s1 + o2 + s2 + o3 + s3 + o4)

def wordOpt : Option Char → Bool
  | some c => isWordCh c
  | none => false

/-- `\b` between two (possibly absent) neighbouring characters. -/
def boundaryB (a b : Option Char) : Bool := wordOpt a != wordOpt b

/-- Scanner reproducing `re.finditer`: try a match at every position from
the left, consume matches (which are never empty), carry the previous
character for `\b` lookbehind. -/
def reScan (matchAt : Option Char → List Char → Option Nat) :
    Option Char → List Char → List (List Char)
  | _, [] => []
  | prev, c :: rest =>
    match matchAt prev (c :: rest) with
    | some (n + 1) =>
      (c :: rest).take (n + 1) ::
        reScan matchAt ((c :: rest).get? n) ((c :: rest).drop (n + 1))
    | _ => reScan matchAt (some c) rest
termination_by _ cs => cs.length
decreasing_by
  · simp only [List.drop_succ_cons, List.length_cons, List.length_drop]
    omega
  · simp

/-- Tail class `[^.,;\s<>\[\]]` of the URI pattern. -/
def uriTailCh (c : Char) : Bool :=
  !(c = '.' || c = ',' || c = ';' || isPyWs c || c = '<' || c = '>' || c = '[' || c = ']')

/-- Body class `[^\s<>"]` of the URI pattern. -/
def uriBodyCh (c : Char) : Bool :=
  !(isPyWs c || c = '<' || c = '>' || c = '"')

/-- Greedy length of `(?:[^.,;\s<>\[\]]|[\[].{1,2}[\]])+` (zero when no
unit matches).  The two alternatives have disjoint first characters
(`[` is excluded from the first class), the quantifier `.{1,2}` is
greedy (two characters tried before one) and `.` does not match a
newline, so the total is deterministic maximal munch. -/
def uriUnits (cs : List Char) : Nat :=
  match cs with
  | '[' :: d1 :: d2 :: rest2 =>
    if d1 != '\n' && d2 != '\n' && rest2.head? == some ']' then 4 + uriUnits rest2.tail
    else if d1 != '\n' && d2 == ']' then 3 + uriUnits rest2
    else 0
  | c :: rest => if uriTailCh c then 1 + uriUnits rest else 0
  | [] => 0
termination_by cs.length
decreasing_by
  all_goals simp only [List.length_cons, List.length_tail]; omega

/-- The lazy part `[^\s<>"]*?\[:\]//(?:...)+` searched from the current
position: the lazy quantifier accepts the nearest position where the
literal `[:]//` matches and is followed by at least one tail unit,
expanding (through body-class characters only) when the tail fails.
Returns the matched length from the current position. -/
def uriSeek (cs : List Char) : Option Nat :=
  if ("[:]//".data).isPrefixOf cs ∧ uriUnits (cs.drop 5) ≥ 1 then
    some (5 + uriUnits (cs.drop 5))
  else
    match cs with
    | c :: rest => if uriBodyCh c then (uriSeek rest).map (· + 1) else none
    | [] => none
termination_by cs.length

/-- A match of the URI pattern
`\b[a-zA-Z0-9][^\s<>"]*?\[:\]//(?:[^.,;\s<>\[\]]|[\[].{1,2}[\]])+`
at the current position. -/
def uriMatchAt (prev : Option Char) : List Char → Option Nat
  | c :: rest =>
    if isAsciiAlnum c && !(wordOpt prev) then (uriSeek rest).map (· + 1) else none
  | [] => none

/-- Local-part class `[a-zA-Z0-9._%+-]` of the e-mail pattern. -/
def emailLocalCh (c : Char) : Bool :=
  isAsciiAlnum c || c = '.' || c = '_' || c = '%' || c = '+' || c = '-'

/-- Domain-label class `[a-zA-Z0-9-]`. -/
def labelCh (c : Char) : Bool := isAsciiAlnum c || c = '-'

/-- The domain part `(?:[a-zA-Z0-9-]+\.)*[a-zA-Z0-9-]+\[\.\][a-zA-Z]{2,}\b`
after the `@`.  Each label run is greedy and cannot be shortened (neither
`.` nor `[` is a label character), the star keeps consuming `label.`
groups while they parse, and unwinding the star never helps because the
unwound position then faces a `.` where the literal `[` is required;
the final `[a-zA-Z]{2,}` must be the maximal alphabetic run with a
non-word follower, since any shorter cut places `\b` between two word
characters. -/
def emailDom (cs : List Char) : Option Nat :=
  match _h : cs.takeWhile labelCh with
  | [] => none
  | a :: l =>
    match h2 : cs.drop (a :: l).length with
    | '.' :: rest => (emailDom rest).map ((a :: l).length + 1 + ·)
    | '[' :: '.' :: ']' :: rest =>
      let t := rest.takeWhile isAsciiAlpha
      if t.length ≥ 2 && !(wordOpt (rest.drop t.length).head?) then
        some ((a :: l).length + 3 + t.length)
      else none
    | _ => none
termination_by cs.length
decreasing_by
  have hle : (a :: l).length ≤ cs.length := by
    rw [← _h]; exact (List.takeWhile_sublist labelCh).length_le
  have h3 : rest.length + 1 = cs.length - (a :: l).length := by
    have h4 := congrArg List.length h2
    simpa using h4.symm
  simp only [List.length_cons] at *
  omega

/-- A match of the e-mail pattern
`\b[a-zA-Z0-9._%+-]+@(?:[a-zA-Z0-9-]+\.)*[a-zA-Z0-9-]+\[\.\][a-zA-Z]{2,}\b`
at the current position: the greedy local part must end exactly at an
`@` (the class excludes `@`, so no shorter run can either). -/
def emailMatchAt (prev : Option Char) (cs : List Char) : Option Nat :=
  let lp := cs.takeWhile emailLocalCh
  if lp = [] then none
  else if !(boundaryB prev cs.head?) then none
  else
    match cs.drop lp.length with
    | '@' :: rest => (emailDom rest).map (lp.length + 1 + ·)
    | _ => none

/-- Class `[a-zA-Z0-9-]` of the DNS pattern (same as a domain label). -/
def dnsCls (c : Char) : Bool := isAsciiAlnum c || c = '-'

/-- Greedy parse of `(?:\[\.\][a-zA-Z0-9-]+)+`: the list of label runs
(one per group, each maximal and non-empty) and the remaining text after
the last parsed group. -/
def dnsGroups : List Char → (List (List Char)) × List Char
  | '[' :: '.' :: ']' :: rest =>
    (match _h : rest.takeWhile dnsCls with
     | [] => ([], '[' :: '.' :: ']' :: rest)
     | a :: l =>
       let p := dnsGroups (rest.drop (a :: l).length)
       ((a :: l) :: p.1, p.2))
  | cs => ([], cs)
termination_by cs => cs.length
decreasing_by
  simp only [List.length_cons, List.length_drop]
  omega

/-- Backtracking of the trailing `\b` into the greedy label run that ends
the match: the longest non-empty prefix of the run whose last character
forms a word boundary with the character that follows it (inside the run,
or `follow` past its end). -/
def cutRun (r : List Char) (follow : Option Char) : Option Nat :=
  (List.range r.length).reverse.findSome? fun j =>
    match r.get? j with
    | some a =>
      let nxt := if j + 1 < r.length then r.get? (j + 1) else follow
      if boundaryB (some a) nxt then some (j + 1) else none
    | none => none

/-- Backtracking over the group count of `(?:\[\.\][a-zA-Z0-9-]+)+`: the
engine first tries all parsed groups (cutting the last run for `\b`),
then drops trailing groups one at a time; a dropped group leaves a `[`
as the follower of the new final run. -/
def dnsTryGroups : List (List Char) → List Char → Option Nat
  | [], _ => none
  | [r], rem => (cutRun r rem.head?).map (3 + ·)
  | r :: r2 :: rest, rem =>
    match dnsTryGroups (r2 :: rest) rem with
    | some n => some (3 + r.length + n)
    | none => (cutRun r (some '[')).map (3 + ·)

/-- A match of the DNS pattern `\b[a-zA-Z0-9-]+(?:\[\.\][a-zA-Z0-9-]+)+\b`
at the current position.  The leading run is maximal (`[` is not in the
class, so shortening it can never reach the required `[`). -/
def dnsMatchAt (prev : Option Char) (cs : List Char) : Option Nat :=
  let r1 := cs.takeWhile dnsCls
  if r1 = [] then none
  else if !(boundaryB prev cs.head?) then none
  else
    let p := dnsGroups (cs.drop r1.length)
    (dnsTryGroups p.1 p.2).map (r1.length + ·)

/-- `re.sub(r'([a-zA-Z0-9/\]:.)])\s*\n\s*(?=[a-zA-Z0-9/\[(])', r'\1', s)`:
the URI line-break stitching.  A match consumes one class-1 character and
the following maximal whitespace run, provided that run contains a
newline and the first character after it satisfies the lookahead class;
the replacement keeps the class-1 character, deleting the whitespace. -/
def stitchCls1 (c : Char) : Bool :=
  isAsciiAlnum c || c = '/' || c = ']' || c = ':' || c = '.' || c = ')'

def stitchCls2 (c : Char) : Bool :=
  isAsciiAlnum c || c = '/' || c = '[' || c = '('

def stitch : List Char → List Char
  | [] => []
  | c :: rest =>
    if stitchCls1 c then
      let w := rest.takeWhile isPyWs
      if w.contains '\n' &&
          (match (rest.drop w.length).head? with
           | some d => stitchCls2 d
           | none => false) then
        c :: stitch (rest.drop w.length)
      else c :: stitch rest
    else c :: stitch rest
termination_by cs => cs.length
decreasing_by
  · simp only [List.length_cons, List.length_drop]; omega
  · simp
  · simp

/-- `re.finditer(r'«([^»]+)»', s)`: positions (index of `«`) and captured
inner texts; `[^»]+` is greedy and must stop at the first following `»`. -/
def fileScan : List Char → Nat → List (Nat × List Char)
  | [], _ => []
  | c :: rest, i =>
    if c = '«' then
      let inner := rest.takeWhile (· ≠ '»')
      match (rest.drop inner.length).head? with
      | some '»' =>
        if inner = [] then fileScan rest (i + 1)
        else (i, inner) :: fileScan (rest.drop (inner.length + 1)) (i + inner.length + 2)
      | _ => fileScan rest (i + 1)
    else fileScan rest (i + 1)
termination_by cs _ => cs.length
decreasing_by
  all_goals simp only [List.length_cons, List.length_drop]; omega

/-! ## Configuration entries and recognition rules -/

/-- Semantic value of the `regex` field of a configuration entry.  Only
the hash and IP stages ever evaluate a configured pattern
(`re.findall(ioc['regex'], working_text)`); the URI, Email, File and DNS
stages use patterns hard-coded in `find_all_raw_matches`.  `hexRun n`
models `\b[a-fA-F0-9]{n}\b`; `ipv4` models the dotted-quad pattern of the
default configuration; `malformed` is a pattern whose compilation or
evaluation raises (`re.error`); `otherPat` carries the pattern text of an
entry that the embedded pipeline never evaluates (evaluating it yields a
distinguishable error, so any theorem below is independent of its
behaviour). -/
inductive Rule where
  | hexRun (n : Nat)
  | ipv4
  | otherPat (pattern : String)
  | malformed
deriving DecidableEq

/-- An uncaught Python exception inside `find_all_raw_matches`. -/
inductive ExtractErr where
  | ruleError
  | unmodeledPattern
deriving DecidableEq

/-- `re.findall(rule, text)`; raising becomes `Except.error`. -/
def runFindall : Rule → List Char → Except ExtractErr (List (List Char))
  | .hexRun n, t => .ok (hexTokens n t)
  | .ipv4, t => .ok (reScan (fun _ cs => ipMatchAt cs) none t)
  | .otherPat _, _ => .error .unmodeledPattern
  | .malformed, _ => .error .ruleError

/-- One entry of the configuration list (a dict in the source;
`file_blacklist` and `filename_exclusions` default to `[]` as with
`.get(..., [])`). -/
structure IocEntry where
  name : String
  enabled : Bool
  rule : Rule
  report_type : String := ""
  nta_status : String := ""
  siem_tools_status : String := ""
  siem_status : String := ""
  mp10_templates : List String := []
  nad_templates : List String := []
  file_blacklist : List String := []
  filename_exclusions : List String := []
deriving DecidableEq

/-- `for ioc in self.ioc_config: if ioc['name'] == n and ioc.get('enabled', False): ...; break`. -/
def findCfg (cfg : List IocEntry) (n : String) : Option IocEntry :=
  cfg.find? (fun e => e.name == n && e.enabled)

/-- The constructor loop of `IOCParser.__init__`: blacklist and exclusion
lists of the first entry named `File` (enabled or not). -/
def fileCfgOf (cfg : List IocEntry) : List String × List String :=
  match cfg.find? (fun e => e.name == "File") with
  | some e => (e.file_blacklist, e.filename_exclusions)
  | none => ([], [])

/-- The result dict of `find_all_raw_matches`: category name to list of
`(original, normalized)` pairs. -/
abbrev Raw := PyDict String (List ((List Char) × (List Char)))

/-! ## The extraction pipeline `find_all_raw_matches` -/

/-- Python `sub in s` (substring test). -/
def isSubstr (m s : List Char) : Bool := (findSub s m).isSome

/-- The inner loop of step 1 for one hash category: iterate the match
set, skip a candidate that is a substring of an already-found hash,
otherwise record the pair, add to the found set and blank every
occurrence in the buffer. -/
def hashFold (h : String) : List (List Char) → List Char → List (List Char) →
    List Char × List (List Char) × List ((List Char) × (List Char))
  | [], w, f => (w, f, [])
  | m :: ms, w, f =>
    if f.any (fun fd => isSubstr m fd) then hashFold h ms w f
    else
      let w' := pyReplace w m (spaces m.length)
      let r := hashFold h ms w' (f ++ [m])
      (r.1, r.2.1, (m, clean_ioc m h) :: r.2.2)

/-- Step 1 for one hash category name. -/
def runHashOne (cfg : List IocEntry) (h : String)
    (st : List Char × List (List Char) × Raw) :
    Except ExtractErr (List Char × List (List Char) × Raw) :=
  match findCfg cfg h with
  | none => .ok st
  | some e => do
    let ms ← runFindall e.rule st.1
    let r := hashFold h (pySet ms) st.1 st.2.1
    .ok (r.1, r.2.1, dextend st.2.2 h r.2.2)

/-- Step 1: hash categories in the fixed order SHA256, SHA1, MD5. -/
def runHashes (cfg : List IocEntry) (text : List Char) :
    Except ExtractErr (List Char × List (List Char) × Raw) := do
  let s1 ← runHashOne cfg "SHA256" (text, [], [])
  let s2 ← runHashOne cfg "SHA1" s1
  runHashOne cfg "MD5" s2

/-- `working_text[:start] + ' ' * (end - start) + working_text[end:]`. -/
def blankSpan (b : List Char) (s n : Nat) : List Char :=
  b.take s ++ spaces n ++ b.drop (s + n)

/-- Position-aware URI scanner: `(start, length)` of each match of the
URI pattern, left to right. -/
def uriScanPos : Option Char → List Char → Nat → List (Nat × Nat)
  | _, [], _ => []
  | prev, c :: rest, i =>
    match uriMatchAt prev (c :: rest) with
    | some (n + 1) =>
      (i, n + 1) :: uriScanPos ((c :: rest).get? n) ((c :: rest).drop (n + 1)) (i + n + 1)
    | _ => uriScanPos (some c) rest (i + 1)
termination_by _ cs _ => cs.length
decreasing_by
  all_goals simp only [List.drop_succ_cons, List.length_cons, List.length_drop]; omega

/-- Step 3: URI extraction.  Matches are taken right to left by start
offset; each original is `match.group(0)` (read from the scan-time
buffer; the spans of distinct matches are disjoint, so right-to-left
blanking never changes a leftward original) and its span is blanked; the
final list is sorted by original text. -/
def runUri (w : List Char) (raw : Raw) : List Char × Raw :=
  let ms := uriScanPos none w 0
  let pairs := (ms.reverse).map (fun sp =>
    let original := (w.drop sp.1).take sp.2
    (original, clean_ioc original "URI"))
  let w' := (ms.reverse).foldl (fun b sp => blankSpan b sp.1 sp.2) w
  (w', dset raw "URI" (sortPairsByFst pairs))

/-- Shared loop of steps 4, 5 and 7: record a pair for each match and
blank all occurrences of the matched string. -/
def consumeFold (cat : String) : List (List Char) → List Char →
    List Char × List ((List Char) × (List Char))
  | [], w => (w, [])
  | m :: ms, w =>
    let w' := pyReplace w m (spaces m.length)
    let r := consumeFold cat ms w'
    (r.1, (m, clean_ioc m cat) :: r.2)

/-- Step 4: IP extraction (the only other stage evaluating the
configured pattern). -/
def runIp (cfg : List IocEntry) (w : List Char) (raw : Raw) :
    Except ExtractErr (List Char × Raw) :=
  match findCfg cfg "IP" with
  | none => .ok (w, dset raw "IP" [])
  | some e => do
    let ms ← runFindall e.rule w
    let r := consumeFold "IP" (pySet ms) w
    .ok (r.1, dset raw "IP" r.2)

/-- Step 5: Email extraction with the hard-coded e-mail pattern. -/
def runEmail (cfg : List IocEntry) (w : List Char) (raw : Raw) :
    List Char × Raw :=
  match findCfg cfg "Email" with
  | none => (w, dset raw "Email" [])
  | some _ =>
    let ms := reScan emailMatchAt none w
    let r := consumeFold "Email" (pySet ms) w
    (r.1, dset raw "Email" r.2)

/-- `filename.rsplit('.', 1)` when it yields two parts. -/
def rsplitDot (s : List Char) : Option (List Char × List Char) :=
  match findSub s.reverse ['.'] with
  | some j => some (s.take (s.length - 1 - j), s.drop (s.length - j))
  | none => none

/-- Step 6: File extraction.  Candidates `«...»` are filtered by the
20-character lowercased blacklist lookback, the exact exclusion list and
the strict file-name shape (exactly one final extension, non-empty
alphabetic-only); accepted matches are blanked after the whole scan. -/
def runFile (blacklist exclusions : List String) (w : List Char) (raw : Raw) :
    List Char × Raw :=
  let cands := fileScan w 0
  let pairs := cands.filterMap (fun c =>
    let before := pyRstrip (pyLower ((w.take c.1).drop (c.1 - 20)))
    if blacklist.any (fun word => word.data.isSuffixOf before) then none
    else if exclusions.any (fun x => x.data = pyStrip c.2) then none
    else
      match rsplitDot c.2 with
      | some bp =>
        if pyStrip bp.1 ≠ [] ∧ pyStrip bp.2 ≠ [] ∧ (pyStrip bp.2).all isAsciiAlpha then
          some (c.2, clean_ioc c.2 "File")
        else none
      | none => none)
  let w' := pairs.foldl
    (fun b p => pyReplace b ('«' :: p.1 ++ ['»']) (spaces (p.1.length + 2))) w
  (w', dset raw "File" pairs)

/-- Step 7: DNS extraction with the hard-coded pattern; matches containing
`@` are rejected. -/
def runDns (cfg : List IocEntry) (w : List Char) (raw : Raw) :
    List Char × Raw :=
  match findCfg cfg "DNS" with
  | none => (w, dset raw "DNS" [])
  | some _ =>
    let ms := (pySet (reScan dnsMatchAt none w)).filter (fun m => !(m.contains '@'))
    let r := consumeFold "DNS" ms w
    (r.1, dset raw "DNS" r.2)

/-- `IOCParser.find_all_raw_matches`. -/
def findAllRawMatches (cfg : List IocEntry) (text : List Char) :
    Except ExtractErr Raw := do
  let s ← runHashes cfg text
  let w2 := stitch s.1
  let u := runUri w2 s.2.2
  let ip ← runIp cfg u.1 u.2
  let em := runEmail cfg ip.1 ip.2
  let bl := fileCfgOf cfg
  let fl := runFile bl.1 bl.2 em.1 em.2
  let dn := runDns cfg fl.1 fl.2
  .ok dn.2

/-- The final loop of `IOCParser.parse`: every configured name gets an
entry, empty when absent. -/
def fillMissing (cfg : List IocEntry) (r : Raw) : Raw :=
  cfg.foldl (fun acc e => if dmem acc e.name then acc else dset acc e.name []) r

/-- `IOCParser.parse`, modulo the `.docx` reading (an external
collaborator: the concatenated text is taken as input). -/
def pyParse (cfg : List IocEntry) (text : List Char) : Except ExtractErr Raw := do
  let r ← findAllRawMatches cfg text
  .ok (fillMissing cfg r)

/-! ## The report generator (`src/model/report_generator.py`) -/

/-- One entry of `group_queries` in `generate_query_data`. -/
structure QueryItem where
  ioc_name : String
  system : String
  query : List Char
  completed : Bool
deriving DecidableEq

/-- One entry of `query_data`. -/
structure QueryGroup where
  group_name : String
  queries : List QueryItem
deriving DecidableEq

/-- `" OR ".join(...)` / `" || ".join(...)` over one template. -/
def joinQueries (sep : List Char) (tpl : List Char) (vals : List (List Char)) :
    List Char :=
  List.intercalate sep (vals.map (fun v => pyReplace tpl ("{ioc}".data) v))

/-- `ReportGenerator.generate_query_data`. -/
def generate_query_data : List IocEntry → Raw → List QueryGroup
  | [], _ => []
  | e :: rest, data =>
    let tail := generate_query_data rest data
    if e.enabled then
      match dget data e.name with
      | some vs =>
        if vs ≠ [] then
          let cleaned := vs.map (·.2)
          let g1 := e.mp10_templates.map (fun t =>
            ⟨e.name, "MP10", joinQueries (" OR ".data) t.data cleaned, false⟩)
          let g2 := e.nad_templates.map (fun t =>
            ⟨e.name, "NAD", joinQueries (" || ".data) t.data cleaned, false⟩)
          let gq : List QueryItem := g1 ++ g2
          if gq ≠ [] then
            ⟨e.name ++ " (" ++ e.report_type ++ ")", gq⟩ :: tail
          else tail
        else tail
      | none => tail
    else tail

/-- Model of `urllib.parse.urlparse` restricted to what
`_smart_clean_uri` reads (`netloc` and `path`) on the http-style strings
it is fed: the netloc runs from `://` to the next `/`, `?` or `#`, the
path from there to the next `?` or `#`.  (Path parameters after a `;`
are not split off; the theorems below restrict to inputs without
`;`, `?` and `#`.) -/
def pyUrlparseNetlocPath (s : List Char) : List Char × List Char :=
  match findSub s ("://".data) with
  | some i =>
    let rest := s.drop (i + 3)
    let netloc := rest.takeWhile (fun c => !(c = '/' || c = '?' || c = '#'))
    let rest2 := rest.drop netloc.length
    let path := rest2.takeWhile (fun c => !(c = '?' || c = '#'))
    (netloc, path)
  | none => ([], s.takeWhile (fun c => !(c = '?' || c = '#')))

/-- `domain = parsed.netloc or parsed.path.split('/')[0]`. -/
def domainOf (cleaned : List Char) : List Char :=
  let s := if ("http".data).isPrefixOf cleaned then cleaned else "http://".data ++ cleaned
  let p := pyUrlparseNetlocPath s
  if p.1 ≠ [] then p.1 else p.2.takeWhile (· ≠ '/')

/-- Python `'/'.join(parts)`. -/
def joinSlash (parts : List (List Char)) : List Char :=
  List.intercalate ['/'] parts

/-- Python `str.split('/')`. -/
def splitSlash (s : List Char) : List (List Char) :=
  s.splitOn '/'

/-- `other_uri != uri and other_uri.startswith(cleaned)` over the group. -/
def notUniqueIn (cand uri : List Char) (group : List (List Char)) : Bool :=
  group.any (fun o => o ≠ uri && cand.isPrefixOf o)

/-- The inner loop of the multi-URI branch of `_smart_clean_uri`: walk the
path parts, on each non-empty part form `domain + '/' + '/'.join(parts[:i+1])`
and stop at the first candidate that no sibling has as a string prefix;
the running value (initially the domain, later the last candidate) is
kept when the loop ends without a unique candidate. -/
def loopAssign (domain uri : List Char) (group : List (List Char)) :
    List (List Char) → List (List Char) → List Char → List Char
  | [], _, current => current
  | p :: rest, seen, current =>
    let seen' := seen ++ [p]
    if p ≠ [] then
      let cand := domain ++ '/' :: joinSlash seen'
      if notUniqueIn cand uri group then loopAssign domain uri group rest seen' cand
      else cand
    else loopAssign domain uri group rest seen' current

/-- Display value of one URI of a multi-URI host group. -/
def assignGroupUri (domain uri : List Char) (group : List (List Char)) :
    List Char :=
  let s := if ("http".data).isPrefixOf uri then uri else "http://".data ++ uri
  let path := (pyUrlparseNetlocPath s).2
  loopAssign domain uri group (splitSlash (stripSlashes path)) [] domain

/-- `ReportGenerator._smart_clean_uri`.  First pass groups the cleaned
URIs by domain (a dict in insertion order), second pass builds the
`cleaned_map`. -/
def smart_clean_uri (uris : List ((List Char) × (List Char))) :
    PyDict (List Char) (List Char) :=
  let groups : PyDict (List Char) (List (List Char)) :=
    uris.foldl (fun acc p => dextend acc (domainOf p.2) [p.2]) []
  groups.foldl (fun acc g =>
    match g.2 with
    | [u] => dset acc u g.1
    | _ => g.2.foldl (fun acc2 u => dset acc2 u (assignGroupUri g.1 u g.2)) acc) []

/-! ## The built-in default configuration (`ConfigManager.DEFAULT_CONFIG`) -/

/-- `ConfigManager.DEFAULT_CONFIG` of `src/model/config_manager.py`.
The hash and IP `regex` fields are the only configured patterns the
pipeline evaluates and are given their semantic embedding; the other
pattern texts are carried verbatim (braces written `\x7b`/`\x7d`,
quote characters `\x27`/`\x60`). -/
def defaultConfig : List IocEntry := [
  { name := "IP", enabled := true, rule := .ipv4,
    report_type := "IP-адрес", nta_status := "",
    siem_tools_status := "---------------", siem_status := "",
    mp10_templates := ["src.ip = \"{ioc}\"", "dst.ip = \"{ioc}\""],
    nad_templates := ["src.ip == \"{ioc}\"", "dst.ip == \"{ioc}\"",
                      "host.ip == \"{ioc}\""] },
  { name := "DNS", enabled := true,
    rule := .otherPat "(?:[a-zA-Z0-9](?:[a-zA-Z0-9\\-]\x7b0,61\x7d[a-zA-Z0-9])?(?:\\[\\.\\]|\\.))\x7b1,\x7d[a-zA-Z]\x7b2,\x7d",
    report_type := "Домен", nta_status := "",
    siem_tools_status := "---------------", siem_status := "---------------",
    mp10_templates := ["event_src.fqdn = \"{ioc}.\"", "object.fullpath = \"{ioc}.\"",
                       "object.name = \"{ioc}.\"", "subject.account.domain = \"{ioc}.\""],
    nad_templates := ["src.dns ~ \"{ioc}.\"", "dst.dns ~ \"{ioc}.\"",
                      "http.rqs.url ~ \"{ioc}.\"", "dns.query.rrname ~ \"{ioc}.\""] },
  { name := "URI", enabled := true,
    rule := .otherPat "(?:https?|hxxps?|ftps?|mtls?)(?:\\[:\\]|:)//[^\\s<>\"]+",
    report_type := "URI", nta_status := "",
    siem_tools_status := "---------------", siem_status := "---------------",
    mp10_templates := [], nad_templates := [] },
  { name := "SHA256", enabled := true, rule := .hexRun 64,
    report_type := "SHA256", nta_status := "---------------",
    siem_tools_status := "---------------", siem_status := "",
    mp10_templates := ["object.hash.sha256 = \"{ioc}\""], nad_templates := [] },
  { name := "SHA1", enabled := true, rule := .hexRun 40,
    report_type := "SHA1", nta_status := "---------------",
    siem_tools_status := "---------------", siem_status := "",
    mp10_templates := ["object.hash.sha1 = \"{ioc}\""], nad_templates := [] },
  { name := "MD5", enabled := true, rule := .hexRun 32,
    report_type := "MD5", nta_status := "",
    siem_tools_status := "---------------", siem_status := "",
    mp10_templates := ["object.hash.md5 = \"{ioc}\""], nad_templates := [] },
  { name := "File", enabled := true,
    rule := .otherPat "(?:\\\"|\\«|файл с наименованием \\\")([^\\\"\\«\\»]+?)(?:\\\"|\\»)",
    report_type := "File", nta_status := "",
    siem_tools_status := "---------------", siem_status := "",
    mp10_templates := ["object.name CONTAINS \"{ioc}\"", "object.path CONTAINS \"{ioc}\"",
                       "object.fullpath = \"{ioc}\""],
    nad_templates := ["files.filename ~ \"{ioc}\"", "files.mime ~ \"{ioc}\""] },
  { name := "Email", enabled := true,
    rule := .otherPat "\\b[a-zA-Z0-9._%+-]+@[a-zA-Z0-9.-]+\\.[a-zA-Z]\x7b2,\x7d\\b",
    report_type := "Email", nta_status := "",
    siem_tools_status := "---------------", siem_status := "",
    mp10_templates := [], nad_templates := [] },
  { name := "Registry", enabled := true,
    rule := .otherPat "(?:HKEY_[A-Z_]+|HKLM|HKCU|HKCR|HKU|HKCC)(?:\\\\[^\\s\\\\]+)+?(?=[\\s,;.!?)\\]\x27\\\"\x60]|$)",
    report_type := "Registry", nta_status := "",
    siem_tools_status := "---------------", siem_status := "",
    mp10_templates := [], nad_templates := [] }]

/-- `Except` success test. -/
def exceptOk : Except ε α → Bool
  | .ok _ => true
  | .error _ => false

instance [DecidableEq e] [DecidableEq a] : DecidableEq (Except e a) := fun x y =>
  match x, y with
  | .error u, .error v =>
    if h : u = v then .isTrue (h ▸ rfl) else .isFalse (fun hc => h (Except.error.inj hc))
  | .ok u, .ok v =>
    if h : u = v then .isTrue (h ▸ rfl) else .isFalse (fun hc => h (Except.ok.inj hc))
  | .error _, .ok _ => .isFalse (fun hc => Except.noConfusion hc)
  | .ok _, .error _ => .isFalse (fun hc => Except.noConfusion hc)

set_option synthInstance.maxSize 512 in
instance : DecidableEq (List Char × List (List Char) ×
    PyDict String (List ((List Char) × (List Char)))) := inferInstance

set_option synthInstance.maxSize 512 in
instance : DecidableEq (List Char ×
    PyDict String (List ((List Char) × (List Char)))) := inferInstance

/-- The eight category names for which the pipeline has an extraction
stage (`raw_matches` can acquire no other key). -/
def stageNames : List String :=
  ["SHA256", "SHA1", "MD5", "URI", "IP", "Email", "File", "DNS"]

/-! ## General lemmas on the Python primitives -/

theorem dropWhile_head_not (p : Char → Bool) (s : List Char) (c : List Char)
    (h : s.dropWhile p = c) (hne : c ≠ []) : p (c.headI) = false := by
  induction s with
  | nil => simp [List.dropWhile] at h; exact absurd h.symm (fun he => hne he.symm)
  | cons a t ih =>
    rw [List.dropWhile_cons] at h
    by_cases hp : p a
    · simp [hp] at h; exact ih h
    · simp [hp] at h; subst h; simpa using hp

theorem stripBoth_pref (p : Char → Bool) (s : List Char) :
    List.IsPrefix (((s.dropWhile p).reverse.dropWhile p).reverse) (s.dropWhile p) := by
  have h1 : ((s.dropWhile p).reverse.dropWhile p).IsSuffix (s.dropWhile p).reverse :=
    List.dropWhile_suffix p
  have h2 : ((((s.dropWhile p).reverse.dropWhile p).reverse).reverse).IsSuffix
      (s.dropWhile p).reverse := by simpa using h1
  exact List.reverse_suffix.mp h2

theorem pyStrip_head? (s : List Char) (c : Char) (h : (pyStrip s).head? = some c) :
    isPyWs c = false := by
  obtain ⟨t, ht⟩ := stripBoth_pref isPyWs s
  have hd : (s.dropWhile isPyWs).head? = some c := by
    rw [← ht, List.head?_append]
    unfold pyStrip at h
    rw [h]; rfl
  have := List.head?_dropWhile_not isPyWs s
  rw [hd] at this
  exact this

theorem pyStrip_last? (s : List Char) (c : Char) (h : (pyStrip s).getLast? = some c) :
    isPyWs c = false := by
  unfold pyStrip at h
  rw [List.getLast?_reverse] at h
  have := List.head?_dropWhile_not isPyWs (s.dropWhile isPyWs).reverse
  rw [h] at this
  exact this

theorem dropWhile_eq_self_of_head? (p : Char → Bool) (s : List Char)
    (h : ∀ c, s.head? = some c → p c = false) : s.dropWhile p = s := by
  cases s with
  | nil => rfl
  | cons a t =>
    rw [List.dropWhile_cons]
    simp [h a rfl]

theorem pyStrip_noop (s : List Char)
    (h1 : ∀ c, s.head? = some c → isPyWs c = false)
    (h2 : ∀ c, s.getLast? = some c → isPyWs c = false) : pyStrip s = s := by
  unfold pyStrip
  rw [dropWhile_eq_self_of_head? isPyWs s h1]
  rw [dropWhile_eq_self_of_head? isPyWs s.reverse
    (by intro c hc; rw [List.head?_reverse] at hc; exact h2 c hc)]
  exact List.reverse_reverse s

theorem pyStrip_idem (s : List Char) : pyStrip (pyStrip s) = pyStrip s :=
  pyStrip_noop _ (fun c hc => pyStrip_head? s c hc) (fun c hc => pyStrip_last? s c hc)

theorem mem_pyStrip (s : List Char) (c : Char) (h : c ∈ pyStrip s) : c ∈ s := by
  obtain ⟨t, ht⟩ := stripBoth_pref isPyWs s
  have h1 : c ∈ s.dropWhile isPyWs := by
    rw [← ht]; exact List.mem_append_left _ h
  exact (List.dropWhile_sublist isPyWs).mem h1

theorem pyReplace_noop (s pat rep : List Char) (c0 : Char)
    (hp : pat.head? = some c0) (hc : c0 ∉ s) : pyReplace s pat rep = s := by
  induction s with
  | nil => rw [pyReplace]
  | cons a t ih =>
    rw [pyReplace]
    have hnot : ¬(pat ≠ [] ∧ pat.isPrefixOf (a :: t)) := by
      rintro ⟨-, h2⟩
      obtain ⟨u, hu⟩ := List.isPrefixOf_iff_prefix.mp h2
      cases pat with
      | nil => simp at hp
      | cons b bt =>
        simp only [List.head?_cons, Option.some.injEq] at hp
        simp only [List.cons_append, List.cons.injEq] at hu
        exact hc (by rw [← hp, hu.1]; exact List.mem_cons_self a t)
    rw [if_neg hnot, ih (fun hm => hc (List.mem_cons_of_mem a hm))]

theorem mem_pySet (l : List (List Char)) (x : List Char) (h : x ∈ pySet l) : x ∈ l := by
  induction l using pySet.induct with
  | case1 => simp [pySet] at h
  | case2 a t ih =>
    rw [pySet] at h
    rcases List.mem_cons.mp h with h1 | h1
    · exact h1 ▸ List.mem_cons_self a _
    · exact List.mem_cons_of_mem a (List.mem_filter.mp (ih h1)).1

theorem pySet_nodup (l : List (List Char)) : (pySet l).Nodup := by
  induction l using pySet.induct with
  | case1 => simp [pySet]
  | case2 a t ih =>
    rw [pySet, List.nodup_cons]
    refine ⟨fun hmem => ?_, ih⟩
    have := List.mem_filter.mp (mem_pySet _ _ hmem)
    simp at this

theorem dget_dset_self [DecidableEq κ] (d : PyDict κ α) (k : κ) (v : α) :
    dget (dset d k v) k = some v := by
  induction d with
  | nil => simp [dset, dget, List.find?]
  | cons p rest ih =>
    rw [dset]
    by_cases hk : p.1 = k
    · rw [if_pos hk]; simp [dget, List.find?]
    · rw [if_neg hk]
      simp only [dget, List.find?] at ih ⊢
      simp [hk, ih]

theorem dget_dset_ne [DecidableEq κ] (d : PyDict κ α) (k k' : κ) (v : α)
    (h : k' ≠ k) : dget (dset d k' v) k = dget d k := by
  induction d with
  | nil => simp [dset, dget, List.find?, h]
  | cons p rest ih =>
    rw [dset]
    by_cases hk : p.1 = k'
    · rw [if_pos hk]
      simp only [dget, List.find?]
      simp [h, hk ▸ h]
    · rw [if_neg hk]
      simp only [dget, List.find?] at ih ⊢
      by_cases hpk : p.1 = k
      · simp [hpk]
      · simp [hpk, ih]

theorem dget_dextend_ne [DecidableEq κ] (d : PyDict κ (List α)) (k k' : κ)
    (v : List α) (h : k' ≠ k) : dget (dextend d k' v) k = dget d k := by
  unfold dextend
  cases dget d k' with
  | none => exact dget_dset_ne d k k' v h
  | some old => exact dget_dset_ne d k k' (old ++ v) h

theorem pyReplace_length (s pat rep : List Char) (h : rep.length = pat.length) :
    (pyReplace s pat rep).length = s.length := by
  revert h
  induction s, pat, rep using pyReplace.induct with
  | case1 pat rep => intro h; rw [pyReplace]
  | case2 pat rep c cs hcond ih =>
    intro h
    rw [pyReplace, if_pos hcond]
    have hple : pat.length ≤ (c :: cs).length :=
      (List.isPrefixOf_iff_prefix.mp hcond.2).length_le
    have hr := ih h
    simp only [List.length_append, hr, List.length_drop, List.length_cons] at *
    omega
  | case3 pat rep c cs hcond ih =>
    intro h
    rw [pyReplace, if_neg hcond]
    simp [ih h]

theorem blank_length (w m : List Char) :
    (pyReplace w m (spaces m.length)).length = w.length :=
  pyReplace_length w m _ (by simp [spaces])

theorem consumeFold_fst_length (cat : String) (ms : List (List Char)) (w : List Char) :
    ((consumeFold cat ms w).1).length = w.length := by
  induction ms generalizing w with
  | nil => rw [consumeFold]
  | cons m t ih =>
    rw [consumeFold]
    exact (ih (pyReplace w m (spaces m.length))).trans (blank_length w m)

theorem consumeFold_map_fst (cat : String) (ms : List (List Char)) (w : List Char) :
    (consumeFold cat ms w).2.map Prod.fst = ms := by
  induction ms generalizing w with
  | nil => rw [consumeFold]; rfl
  | cons m t ih =>
    rw [consumeFold]
    simp [ih]

theorem hashFold_fst_length (h : String) (ms : List (List Char)) (w : List Char)
    (f : List (List Char)) : ((hashFold h ms w f).1).length = w.length := by
  induction ms generalizing w f with
  | nil => rw [hashFold]
  | cons m t ih =>
    rw [hashFold]
    by_cases hc : f.any (fun fd => isSubstr m fd)
    · rw [if_pos hc]; exact ih w f
    · rw [if_neg hc]
      exact (ih (pyReplace w m (spaces m.length)) (f ++ [m])).trans (blank_length w m)

theorem hashFold_map_fst_sublist (h : String) (ms : List (List Char)) (w : List Char)
    (f : List (List Char)) :
    List.Sublist ((hashFold h ms w f).2.2.map Prod.fst) ms := by
  induction ms generalizing w f with
  | nil => rw [hashFold]; simp
  | cons m t ih =>
    rw [hashFold]
    by_cases hc : f.any (fun fd => isSubstr m fd)
    · rw [if_pos hc]; exact (ih w f).cons m
    · rw [if_neg hc]
      simpa using (ih (pyReplace w m (spaces m.length)) (f ++ [m])).cons₂ m

theorem hashFold_found_extends (h : String) (ms : List (List Char)) (w : List Char)
    (f : List (List Char)) (x : List Char) (hx : x ∈ f) :
    x ∈ (hashFold h ms w f).2.1 := by
  induction ms generalizing w f with
  | nil => rw [hashFold]; exact hx
  | cons m t ih =>
    rw [hashFold]
    by_cases hc : f.any (fun fd => isSubstr m fd)
    · rw [if_pos hc]; exact ih w f hx
    · rw [if_neg hc]
      exact ih (pyReplace w m (spaces m.length)) (f ++ [m]) (List.mem_append_left _ hx)

theorem hashFold_pairs_in_found (h : String) (ms : List (List Char)) (w : List Char)
    (f : List (List Char)) (p : (List Char) × (List Char))
    (hp : p ∈ (hashFold h ms w f).2.2) : p.1 ∈ (hashFold h ms w f).2.1 := by
  induction ms generalizing w f with
  | nil => rw [hashFold] at hp; simp at hp
  | cons m t ih =>
    rw [hashFold] at hp ⊢
    by_cases hc : f.any (fun fd => isSubstr m fd)
    · rw [if_pos hc] at hp ⊢; exact ih w f hp
    · rw [if_neg hc] at hp ⊢
      rcases List.mem_cons.mp hp with h1 | h1
      · subst h1
        exact hashFold_found_extends h t _ _ m (List.mem_append_right _ (by simp))
      · exact ih _ _ h1

theorem hashFold_no_substr (h : String) (ms : List (List Char)) (w : List Char)
    (f : List (List Char)) (p : (List Char) × (List Char))
    (hp : p ∈ (hashFold h ms w f).2.2) (g : List Char) (hg : g ∈ f) :
    isSubstr p.1 g = false := by
  induction ms generalizing w f with
  | nil => rw [hashFold] at hp; simp at hp
  | cons m t ih =>
    rw [hashFold] at hp
    by_cases hc : f.any (fun fd => isSubstr m fd)
    · rw [if_pos hc] at hp; exact ih w f hp hg
    · rw [if_neg hc] at hp
      rcases List.mem_cons.mp hp with h1 | h1
      · subst h1
        simp only [List.any_eq_true, not_exists, not_and] at hc
        simpa using hc g hg
      · exact ih _ _ h1 (List.mem_append_left _ hg)

theorem runHashOne_malformed (cfg : List IocEntry) (h : String)
    (st : List Char × List (List Char) × Raw) (e : IocEntry)
    (hf : findCfg cfg h = some e) (hm : e.rule = .malformed) :
    runHashOne cfg h st = .error .ruleError := by
  unfold runHashOne
  simp only [hf, hm]
  rfl

theorem runHashes_not_ok_of_malformed (cfg : List IocEntry) (text : List Char)
    (n : String) (e : IocEntry) (hn : n = "SHA256" ∨ n = "SHA1" ∨ n = "MD5")
    (hf : findCfg cfg n = some e) (hm : e.rule = .malformed) :
    exceptOk (runHashes cfg text) = false := by
  unfold runHashes
  rcases hn with rfl | rfl | rfl
  · rw [runHashOne_malformed cfg _ _ e hf hm]
    rfl
  · cases h1 : runHashOne cfg "SHA256" (text, [], []) with
    | error er => rfl
    | ok s1 =>
      show exceptOk (Except.ok s1 >>= _) = false
      rw [show (Except.ok s1 >>= fun s1 => runHashOne cfg "SHA1" s1 >>=
        fun s2 => runHashOne cfg "MD5" s2) = (runHashOne cfg "SHA1" s1 >>=
        fun s2 => runHashOne cfg "MD5" s2) from rfl]
      rw [runHashOne_malformed cfg _ s1 e hf hm]
      rfl
  · cases h1 : runHashOne cfg "SHA256" (text, [], []) with
    | error er => rfl
    | ok s1 =>
      rw [show ((Except.ok s1 : Except ExtractErr _) >>= fun s1 =>
        runHashOne cfg "SHA1" s1 >>= fun s2 => runHashOne cfg "MD5" s2) =
        (runHashOne cfg "SHA1" s1 >>= fun s2 => runHashOne cfg "MD5" s2) from rfl]
      cases h2 : runHashOne cfg "SHA1" s1 with
      | error er => rfl
      | ok s2 =>
        rw [show ((Except.ok s2 : Except ExtractErr _) >>= fun s2 =>
          runHashOne cfg "MD5" s2) = runHashOne cfg "MD5" s2 from rfl]
        rw [runHashOne_malformed cfg _ s2 e hf hm]
        rfl

theorem exceptOk_okBind (s : α) (f : α → Except ExtractErr β) :
    exceptOk ((Except.ok s : Except ExtractErr α) >>= f) = exceptOk (f s) := rfl

theorem okBind (a : α) (f : α → Except ExtractErr β) :
    ((Except.ok a : Except ExtractErr α) >>= f) = f a := rfl

theorem findAll_not_ok_of_hashes (cfg : List IocEntry) (text : List Char)
    (h : exceptOk (runHashes cfg text) = false) :
    exceptOk (findAllRawMatches cfg text) = false := by
  unfold findAllRawMatches
  cases hr : runHashes cfg text with
  | error er => rfl
  | ok s => rw [hr] at h; simp [exceptOk] at h

theorem runIp_malformed (cfg : List IocEntry) (e : IocEntry)
    (hf : findCfg cfg "IP" = some e) (hm : e.rule = .malformed)
    (w : List Char) (raw : Raw) : runIp cfg w raw = .error .ruleError := by
  unfold runIp
  simp only [hf, hm]
  rfl

theorem findAll_not_ok_of_ip (cfg : List IocEntry) (text : List Char) (e : IocEntry)
    (hf : findCfg cfg "IP" = some e) (hm : e.rule = .malformed) :
    exceptOk (findAllRawMatches cfg text) = false := by
  unfold findAllRawMatches
  cases hr : runHashes cfg text with
  | error er => rfl
  | ok s =>
    rw [exceptOk_okBind]
    simp only [runIp_malformed cfg e hf hm]
    rfl

theorem runEmail_rule_free (cfg cfg' : List IocEntry) (w : List Char) (raw : Raw)
    (h : (findCfg cfg "Email").isSome = (findCfg cfg' "Email").isSome) :
    runEmail cfg w raw = runEmail cfg' w raw := by
  unfold runEmail
  cases h1 : findCfg cfg "Email" with
  | none =>
    cases h2 : findCfg cfg' "Email" with
    | none => rfl
    | some e => rw [h1, h2] at h; simp at h
  | some e =>
    cases h2 : findCfg cfg' "Email" with
    | none => rw [h1, h2] at h; simp at h
    | some e' => rfl

theorem runDns_rule_free (cfg cfg' : List IocEntry) (w : List Char) (raw : Raw)
    (h : (findCfg cfg "DNS").isSome = (findCfg cfg' "DNS").isSome) :
    runDns cfg w raw = runDns cfg' w raw := by
  unfold runDns
  cases h1 : findCfg cfg "DNS" with
  | none =>
    cases h2 : findCfg cfg' "DNS" with
    | none => rfl
    | some e => rw [h1, h2] at h; simp at h
  | some e =>
    cases h2 : findCfg cfg' "DNS" with
    | none => rw [h1, h2] at h; simp at h
    | some e' => rfl

unseal pyReplace collapseWs findSub pySet uriUnits uriSeek wordRuns emailDom dnsGroups stitch fileScan reScan uriScanPos in
/-- C2, counterexample: with a single enabled `MD5` category whose
recognition rule is malformed, `find_all_raw_matches` raises (the
`re.findall` call is not wrapped in any handler), so the run aborts
instead of returning an empty `MD5` result with the other categories
intact, contradicting the claim at this concrete input. -/
theorem c2_counterexample :
    exceptOk (findAllRawMatches
      [{ name := "MD5", enabled := true, rule := .malformed }] ("abc".data)) = false := by
  decide

/-- C2, amended: a recognition rule that fails to compile or evaluate in
an enabled SHA256, SHA1, MD5 or IP category makes the whole
`find_all_raw_matches` run raise — no category produces a result; the
Email and DNS stages (like URI and File) use hard-coded patterns and
never evaluate the configured rule, so their behaviour is independent of
that rule's value. -/
theorem c2_malformed_rule_aborts_run :
    (∀ (text : List Char) (cfg : List IocEntry) (n : String) (e : IocEntry),
      (n = "SHA256" ∨ n = "SHA1" ∨ n = "MD5" ∨ n = "IP") →
      findCfg cfg n = some e → e.rule = .malformed →
      exceptOk (findAllRawMatches cfg text) = false) ∧
    (∀ (cfg cfg' : List IocEntry) (w : List Char) (raw : Raw),
      (findCfg cfg "Email").isSome = (findCfg cfg' "Email").isSome →
      runEmail cfg w raw = runEmail cfg' w raw) ∧
    (∀ (cfg cfg' : List IocEntry) (w : List Char) (raw : Raw),
      (findCfg cfg "DNS").isSome = (findCfg cfg' "DNS").isSome →
      runDns cfg w raw = runDns cfg' w raw) := by
  refine ⟨?_, runEmail_rule_free, runDns_rule_free⟩
  intro text cfg n e hn hf hm
  rcases hn with rfl | rfl | rfl | rfl
  · exact findAll_not_ok_of_hashes _ _
      (runHashes_not_ok_of_malformed _ _ _ e (Or.inl rfl) hf hm)
  · exact findAll_not_ok_of_hashes _ _
      (runHashes_not_ok_of_malformed _ _ _ e (Or.inr (Or.inl rfl)) hf hm)
  · exact findAll_not_ok_of_hashes _ _
      (runHashes_not_ok_of_malformed _ _ _ e (Or.inr (Or.inr rfl)) hf hm)
  · exact findAll_not_ok_of_ip _ _ e hf hm

/-- C2, witness: the amended theorem applied to a concrete configuration
with a malformed IP rule. -/
theorem c2_malformed_rule_aborts_run_witness :
    exceptOk (findAllRawMatches
      [{ name := "IP", enabled := true, rule := .malformed }] ("1.2.3.4".data)) = false :=
  c2_malformed_rule_aborts_run.1 ("1.2.3.4".data)
    [{ name := "IP", enabled := true, rule := .malformed }] "IP"
    { name := "IP", enabled := true, rule := .malformed }
    (Or.inr (Or.inr (Or.inr rfl))) rfl rfl

theorem runHashOne_elim (cfg : List IocEntry) (h : String)
    (st st' : List Char × List (List Char) × Raw)
    (hok : runHashOne cfg h st = .ok st') :
    (findCfg cfg h = none ∧ st' = st) ∨
    (∃ e ms, findCfg cfg h = some e ∧ runFindall e.rule st.1 = .ok ms ∧
      st' = ((hashFold h (pySet ms) st.1 st.2.1).1,
             (hashFold h (pySet ms) st.1 st.2.1).2.1,
             dextend st.2.2 h (hashFold h (pySet ms) st.1 st.2.1).2.2)) := by
  unfold runHashOne at hok
  cases hf : findCfg cfg h with
  | none =>
    simp only [hf] at hok
    exact Or.inl ⟨rfl, by injection hok with hh; exact hh.symm⟩
  | some e =>
    simp only [hf] at hok
    cases hr : runFindall e.rule st.1 with
    | error er =>
      rw [hr] at hok
      exact absurd hok (by simp [Bind.bind, Except.bind])
    | ok ms =>
      rw [hr, okBind] at hok
      refine Or.inr ⟨e, ms, rfl, hr, ?_⟩
      injection hok with hh
      exact hh.symm

theorem dget_nil [DecidableEq κ] (k : κ) : dget ([] : PyDict κ α) k = none := rfl

theorem runHashOne_nodup_inv (cfg : List IocEntry) (h : String)
    (st st' : List Char × List (List Char) × Raw)
    (hok : runHashOne cfg h st = .ok st')
    (hinv : ∀ n l, dget st.2.2 n = some l → (l.map Prod.fst).Nodup)
    (hfresh : dget st.2.2 h = none) :
    ∀ n l, dget st'.2.2 n = some l → (l.map Prod.fst).Nodup := by
  rcases runHashOne_elim cfg h st st' hok with ⟨-, rfl⟩ | ⟨e, ms, -, -, rfl⟩
  · exact hinv
  · intro n l hg
    by_cases hn : n = h
    · subst hn
      rw [dextend, hfresh, dget_dset_self] at hg
      injection hg with hl
      subst hl
      exact (hashFold_map_fst_sublist _ (pySet ms) st.1 st.2.1).nodup (pySet_nodup ms)
    · rw [dget_dextend_ne _ _ _ _ (fun he => hn he.symm)] at hg
      exact hinv n l hg

theorem runHashOne_dget_none (cfg : List IocEntry) (h : String)
    (st st' : List Char × List (List Char) × Raw)
    (hok : runHashOne cfg h st = .ok st') (n : String) (hne : n ≠ h)
    (h0 : dget st.2.2 n = none) : dget st'.2.2 n = none := by
  rcases runHashOne_elim cfg h st st' hok with ⟨-, rfl⟩ | ⟨e, ms, -, -, rfl⟩
  · exact h0
  · rw [dget_dextend_ne _ _ _ _ (fun he => hne he.symm)]
    exact h0

theorem runHashes_elim (cfg : List IocEntry) (text : List Char)
    (s : List Char × List (List Char) × Raw)
    (hok : runHashes cfg text = .ok s) :
    ∃ s1 s2, runHashOne cfg "SHA256" (text, [], []) = .ok s1 ∧
      runHashOne cfg "SHA1" s1 = .ok s2 ∧ runHashOne cfg "MD5" s2 = .ok s := by
  unfold runHashes at hok
  cases h1 : runHashOne cfg "SHA256" (text, [], []) with
  | error er => rw [h1] at hok; exact absurd hok (by simp [Bind.bind, Except.bind])
  | ok s1 =>
    rw [h1, okBind] at hok
    cases h2 : runHashOne cfg "SHA1" s1 with
    | error er => rw [h2] at hok; exact absurd hok (by simp [Bind.bind, Except.bind])
    | ok s2 =>
      rw [h2, okBind] at hok
      exact ⟨s1, s2, rfl, h2, hok⟩

theorem findAll_elim (cfg : List IocEntry) (text : List Char) (r : Raw)
    (hok : findAllRawMatches cfg text = .ok r) :
    ∃ s x, runHashes cfg text = .ok s ∧
      runIp cfg (runUri (stitch s.1) s.2.2).1 (runUri (stitch s.1) s.2.2).2 = .ok x ∧
      r = (runDns cfg
            (runFile (fileCfgOf cfg).1 (fileCfgOf cfg).2
              (runEmail cfg x.1 x.2).1 (runEmail cfg x.1 x.2).2).1
            (runFile (fileCfgOf cfg).1 (fileCfgOf cfg).2
              (runEmail cfg x.1 x.2).1 (runEmail cfg x.1 x.2).2).2).2 := by
  unfold findAllRawMatches at hok
  cases h1 : runHashes cfg text with
  | error er => rw [h1] at hok; exact absurd hok (by simp [Bind.bind, Except.bind])
  | ok s =>
    rw [h1] at hok
    simp only [okBind] at hok
    cases h2 : runIp cfg (runUri (stitch s.1) s.2.2).1 (runUri (stitch s.1) s.2.2).2 with
    | error er => rw [h2] at hok; exact absurd hok (by simp [Bind.bind, Except.bind])
    | ok x =>
      rw [h2] at hok
      simp only [okBind] at hok
      injection hok with hh
      exact ⟨s, x, rfl, h2, hh.symm⟩

theorem runUri_dget_ne (w : List Char) (raw : Raw) (k : String) (h : k ≠ "URI") :
    dget (runUri w raw).2 k = dget raw k := by
  simp only [runUri]
  exact dget_dset_ne _ _ _ _ (fun he => h he.symm)

theorem runIp_dget_ne (cfg : List IocEntry) (w : List Char) (raw : Raw)
    (x : List Char × Raw) (hok : runIp cfg w raw = .ok x) (k : String)
    (h : k ≠ "IP") : dget x.2 k = dget raw k := by
  unfold runIp at hok
  cases hf : findCfg cfg "IP" with
  | none =>
    simp only [hf] at hok
    injection hok with hh
    rw [← hh]
    exact dget_dset_ne _ _ _ _ (fun he => h he.symm)
  | some e =>
    simp only [hf] at hok
    cases hr : runFindall e.rule w with
    | error er => rw [hr] at hok; exact absurd hok (by simp [Bind.bind, Except.bind])
    | ok ms =>
      rw [hr, okBind] at hok
      injection hok with hh
      rw [← hh]
      exact dget_dset_ne _ _ _ _ (fun he => h he.symm)

theorem runEmail_dget_ne (cfg : List IocEntry) (w : List Char) (raw : Raw)
    (k : String) (h : k ≠ "Email") : dget (runEmail cfg w raw).2 k = dget raw k := by
  unfold runEmail
  split
  · exact dget_dset_ne _ _ _ _ (fun he => h he.symm)
  · exact dget_dset_ne _ _ _ _ (fun he => h he.symm)

theorem runFile_dget_ne (bl ex : List String) (w : List Char) (raw : Raw)
    (k : String) (h : k ≠ "File") : dget (runFile bl ex w raw).2 k = dget raw k := by
  simp only [runFile]
  exact dget_dset_ne _ _ _ _ (fun he => h he.symm)

theorem runDns_dget_ne (cfg : List IocEntry) (w : List Char) (raw : Raw)
    (k : String) (h : k ≠ "DNS") : dget (runDns cfg w raw).2 k = dget raw k := by
  unfold runDns
  split
  · exact dget_dset_ne _ _ _ _ (fun he => h he.symm)
  · exact dget_dset_ne _ _ _ _ (fun he => h he.symm)

theorem runIp_nodup (cfg : List IocEntry) (w : List Char) (raw : Raw)
    (x : List Char × Raw) (hok : runIp cfg w raw = .ok x) (l : List _)
    (hg : dget x.2 "IP" = some l) : (l.map Prod.fst).Nodup := by
  unfold runIp at hok
  cases hf : findCfg cfg "IP" with
  | none =>
    simp only [hf] at hok
    injection hok with hh
    rw [← hh, dget_dset_self] at hg
    injection hg with hl
    simp [← hl]
  | some e =>
    simp only [hf] at hok
    cases hr : runFindall e.rule w with
    | error er => rw [hr] at hok; exact absurd hok (by simp [Bind.bind, Except.bind])
    | ok ms =>
      rw [hr, okBind] at hok
      injection hok with hh
      rw [← hh, dget_dset_self] at hg
      injection hg with hl
      rw [← hl, consumeFold_map_fst]
      exact pySet_nodup ms

theorem runEmail_nodup (cfg : List IocEntry) (w : List Char) (raw : Raw)
    (l : List _) (hg : dget (runEmail cfg w raw).2 "Email" = some l) :
    (l.map Prod.fst).Nodup := by
  unfold runEmail at hg
  split at hg
  · rw [dget_dset_self] at hg
    injection hg with hl
    simp [← hl]
  · rw [dget_dset_self] at hg
    injection hg with hl
    rw [← hl, consumeFold_map_fst]
    exact pySet_nodup _

theorem runDns_nodup (cfg : List IocEntry) (w : List Char) (raw : Raw)
    (l : List _) (hg : dget (runDns cfg w raw).2 "DNS" = some l) :
    (l.map Prod.fst).Nodup := by
  unfold runDns at hg
  split at hg
  · rw [dget_dset_self] at hg
    injection hg with hl
    simp [← hl]
  · rw [dget_dset_self] at hg
    injection hg with hl
    rw [← hl, consumeFold_map_fst]
    exact (pySet_nodup _).filter _

theorem runHashes_nodup (cfg : List IocEntry) (text : List Char)
    (s : List Char × List (List Char) × Raw) (hok : runHashes cfg text = .ok s) :
    ∀ n l, dget s.2.2 n = some l → (l.map Prod.fst).Nodup := by
  obtain ⟨s1, s2, h1, h2, h3⟩ := runHashes_elim cfg text s hok
  have inv1 := runHashOne_nodup_inv cfg "SHA256" (text, [], []) s1 h1
    (by intro n l hg; rw [dget_nil] at hg; exact absurd hg (by simp)) rfl
  have fresh1 : dget s1.2.2 "SHA1" = none :=
    runHashOne_dget_none cfg "SHA256" (text, [], []) s1 h1 "SHA1" (by decide) rfl
  have inv2 := runHashOne_nodup_inv cfg "SHA1" s1 s2 h2 inv1 fresh1
  have fresh2 : dget s2.2.2 "MD5" = none :=
    runHashOne_dget_none cfg "SHA1" s1 s2 h2 "MD5" (by decide)
      (runHashOne_dget_none cfg "SHA256" (text, [], []) s1 h1 "MD5" (by decide) rfl)
  exact runHashOne_nodup_inv cfg "MD5" s2 s h3 inv2 fresh2

unseal pyReplace collapseWs findSub pySet uriUnits uriSeek wordRuns emailDom dnsGroups stitch fileScan reScan uriScanPos in
/-- C1, counterexample: the URI stage never deduplicates — the same URI
token occurring twice yields two identical `(original, normalized)`
pairs in the URI result list, so a category's list can contain two pairs
with the same normalized value (here even the same original). -/
theorem c1_counterexample :
    findAllRawMatches [] ("hxxp[:]//e[.]com hxxp[:]//e[.]com".data) =
      .ok [("URI", [("hxxp[:]//e[.]com".data, "http://e.com".data),
                    ("hxxp[:]//e[.]com".data, "http://e.com".data)]),
           ("IP", []), ("Email", []), ("File", []), ("DNS", [])] ∧
    ¬ (([("hxxp[:]//e[.]com".data, "http://e.com".data),
        ("hxxp[:]//e[.]com".data, "http://e.com".data)].map Prod.snd).Nodup) := by
  constructor
  · decide
  · decide

/-- C1 (amended): deduplication is keyed by the raw matched token and
only the hash, IP, Email and DNS stages perform it (via `set(matches)`):
in every successful run their result lists contain at most one pair per
original token.  The URI and File stages do not deduplicate at all, so
their lists can repeat both the original and the normalized value (see
the counterexample). -/
theorem c1_dedup_by_original_only
    (text : List Char) (cfg : List IocEntry) (r : Raw) (n : String)
    (l : List ((List Char) × (List Char)))
    (hok : findAllRawMatches cfg text = .ok r)
    (hn : n = "SHA256" ∨ n = "SHA1" ∨ n = "MD5" ∨ n = "IP" ∨ n = "Email" ∨ n = "DNS")
    (hg : dget r n = some l) : (l.map Prod.fst).Nodup := by
  obtain ⟨s, x, h1, h2, hr⟩ := findAll_elim cfg text r hok
  subst hr
  rcases hn with rfl | rfl | rfl | rfl | rfl | rfl
  · rw [runDns_dget_ne _ _ _ _ (by decide), runFile_dget_ne _ _ _ _ _ (by decide),
      runEmail_dget_ne _ _ _ _ (by decide), runIp_dget_ne cfg _ _ x h2 _ (by decide),
      runUri_dget_ne _ _ _ (by decide)] at hg
    exact runHashes_nodup cfg text s h1 _ l hg
  · rw [runDns_dget_ne _ _ _ _ (by decide), runFile_dget_ne _ _ _ _ _ (by decide),
      runEmail_dget_ne _ _ _ _ (by decide), runIp_dget_ne cfg _ _ x h2 _ (by decide),
      runUri_dget_ne _ _ _ (by decide)] at hg
    exact runHashes_nodup cfg text s h1 _ l hg
  · rw [runDns_dget_ne _ _ _ _ (by decide), runFile_dget_ne _ _ _ _ _ (by decide),
      runEmail_dget_ne _ _ _ _ (by decide), runIp_dget_ne cfg _ _ x h2 _ (by decide),
      runUri_dget_ne _ _ _ (by decide)] at hg
    exact runHashes_nodup cfg text s h1 _ l hg
  · rw [runDns_dget_ne _ _ _ _ (by decide), runFile_dget_ne _ _ _ _ _ (by decide),
      runEmail_dget_ne _ _ _ _ (by decide)] at hg
    exact runIp_nodup cfg _ _ x h2 l hg
  · rw [runDns_dget_ne _ _ _ _ (by decide), runFile_dget_ne _ _ _ _ _ (by decide)] at hg
    exact runEmail_nodup cfg _ _ l hg
  · exact runDns_nodup cfg _ _ l hg

unseal pyReplace collapseWs findSub pySet uriUnits uriSeek wordRuns emailDom dnsGroups stitch fileScan reScan uriScanPos in
/-- C1, witness: the amended theorem applied to a concrete run in which
the IP `1.2.3.4` occurs twice and is reported once. -/
theorem c1_dedup_by_original_only_witness :
    (([(("1.2.3.4".data : List Char), ("1.2.3.4".data : List Char))]).map Prod.fst).Nodup :=
  c1_dedup_by_original_only ("1.2.3.4 and 1.2.3.4".data)
    [{ name := "IP", enabled := true, rule := .ipv4 }]
    [("URI", []), ("IP", [("1.2.3.4".data, "1.2.3.4".data)]),
     ("Email", []), ("File", []), ("DNS", [])]
    "IP" [("1.2.3.4".data, "1.2.3.4".data)]
    (by decide) (by decide) (by decide)

theorem runHashOne_dget_ne (cfg : List IocEntry) (h : String)
    (st st' : List Char × List (List Char) × Raw)
    (hok : runHashOne cfg h st = .ok st') (n : String) (hne : n ≠ h) :
    dget st'.2.2 n = dget st.2.2 n := by
  rcases runHashOne_elim cfg h st st' hok with ⟨-, rfl⟩ | ⟨e, ms, -, -, rfl⟩
  · rfl
  · exact dget_dextend_ne _ _ _ _ (fun he => hne he.symm)

theorem hashes_no_substr (cfg : List IocEntry) (text : List Char)
    (s : List Char × List (List Char) × Raw) (hok : runHashes cfg text = .ok s)
    (lS lM : List ((List Char) × (List Char)))
    (hS : dget s.2.2 "SHA1" = some lS) (hM : dget s.2.2 "MD5" = some lM)
    (p q : (List Char) × (List Char)) (hp : p ∈ lM) (hq : q ∈ lS) :
    isSubstr p.1 q.1 = false := by
  obtain ⟨s1, s2, h1, h2, h3⟩ := runHashes_elim cfg text s hok
  -- the SHA1 list is produced by the SHA1 step and untouched by the MD5 step
  rw [runHashOne_dget_ne cfg "MD5" s2 s h3 "SHA1" (by decide)] at hS
  have freshSha1 : dget s1.2.2 "SHA1" = none :=
    runHashOne_dget_none cfg "SHA256" (text, [], []) s1 h1 "SHA1" (by decide) rfl
  rcases runHashOne_elim cfg "SHA1" s1 s2 h2 with ⟨-, rfl⟩ | ⟨e, ms, -, -, hs2⟩
  · rw [freshSha1] at hS; exact absurd hS (by simp)
  · -- q's original is in the found set after the SHA1 step
    have hSval : dget s2.2.2 "SHA1" = some ((hashFold "SHA1" (pySet ms) s1.1 s1.2.1).2.2) := by
      rw [hs2]
      show dget (dextend s1.2.2 "SHA1" _) "SHA1" = _
      rw [dextend, freshSha1, dget_dset_self]
    rw [hSval] at hS
    injection hS with hSl
    have hqf : q.1 ∈ s2.2.1 := by
      rw [hs2]
      exact hashFold_pairs_in_found "SHA1" (pySet ms) s1.1 s1.2.1 q (by rw [hSl]; exact hq)
    -- the MD5 list is produced by the MD5 step from the found set of s2
    have freshMd5 : dget s2.2.2 "MD5" = none := by
      rw [hs2]
      show dget (dextend s1.2.2 "SHA1" _) "MD5" = none
      rw [dget_dextend_ne _ _ _ _ (by decide)]
      exact runHashOne_dget_none cfg "SHA256" (text, [], []) s1 h1 "MD5" (by decide) rfl
    rcases runHashOne_elim cfg "MD5" s2 s h3 with ⟨-, rfl⟩ | ⟨e', ms', -, -, hs3⟩
    · rw [freshMd5] at hM; exact absurd hM (by simp)
    · have hMval : dget s.2.2 "MD5" = some ((hashFold "MD5" (pySet ms') s2.1 s2.2.1).2.2) := by
        rw [hs3]
        show dget (dextend s2.2.2 "MD5" _) "MD5" = _
        rw [dextend, freshMd5, dget_dset_self]
      rw [hMval] at hM
      injection hM with hMl
      exact hashFold_no_substr "MD5" (pySet ms') s2.1 s2.2.1 p (by rw [hMl]; exact hp) q.1 hqf

unseal pyReplace collapseWs findSub pySet uriUnits uriSeek wordRuns emailDom dnsGroups stitch fileScan reScan uriScanPos in
/-- C3, counterexample: the claim quantifies over every text containing
a 32-hex token embedded in a 40-hex token, but a standalone 32-hex token
elsewhere in such a text still lands in the MD5 result list — here the
32-hex `aaa…a` is embedded in the 40-hex `aaa…a` (so the premise holds,
witnessed by the substring test) yet MD5 reports the separate
`bbb…b`, so the MD5 list of this run is not empty. -/
theorem c3_counterexample :
    isSubstr ("aaaaaaaaaaaaaaaaaaaaaaaaaaaaaaaa".data)
        ("aaaaaaaaaaaaaaaaaaaaaaaaaaaaaaaaaaaaaaaa".data) = true ∧
    findAllRawMatches defaultConfig
      ("see aaaaaaaaaaaaaaaaaaaaaaaaaaaaaaaaaaaaaaaa bbbbbbbbbbbbbbbbbbbbbbbbbbbbbbbb now".data) =
      .ok [("SHA256", []),
           ("SHA1", [("aaaaaaaaaaaaaaaaaaaaaaaaaaaaaaaaaaaaaaaa".data,
                      "aaaaaaaaaaaaaaaaaaaaaaaaaaaaaaaaaaaaaaaa".data)]),
           ("MD5", [("bbbbbbbbbbbbbbbbbbbbbbbbbbbbbbbb".data,
                     "bbbbbbbbbbbbbbbbbbbbbbbbbbbbbbbb".data)]),
           ("URI", []), ("IP", []), ("Email", []), ("File", []), ("DNS", [])] := by
  constructor
  · decide
  · decide

unseal pyReplace collapseWs findSub pySet uriUnits uriSeek wordRuns emailDom dnsGroups stitch fileScan reScan uriScanPos in
/-- C3 (amended): hash categories are processed longest-first (SHA256,
SHA1, MD5), a candidate that is a substring of an already-accepted
longer hash is discarded, and accepted spans are blanked, so for the
Scenario C input — whose only hex token is the 40-hex SHA1 with the MD5
`d41d8cd98f00b204e9800998ecf8427e` embedded at the same position — the
SHA1 is reported and the MD5 list is empty; and in every successful run
no reported MD5 original is a substring of a reported SHA1 original.
(When the text contains a 32-hex token outside the accepted longer
hashes, the MD5 list is not empty; see the counterexample.) -/
theorem c3_hash_order_and_discard :
    (findAllRawMatches defaultConfig
      ("see d41d8cd98f00b204e9800998ecf8427edeadbeef now".data) =
      .ok [("SHA256", []),
           ("SHA1", [("d41d8cd98f00b204e9800998ecf8427edeadbeef".data,
                      "d41d8cd98f00b204e9800998ecf8427edeadbeef".data)]),
           ("MD5", []),
           ("URI", []), ("IP", []), ("Email", []), ("File", []), ("DNS", [])]) ∧
    (∀ (text : List Char) (cfg : List IocEntry) (r : Raw)
       (lS lM : List ((List Char) × (List Char)))
       (p q : (List Char) × (List Char)),
      findAllRawMatches cfg text = .ok r →
      dget r "SHA1" = some lS → dget r "MD5" = some lM →
      p ∈ lM → q ∈ lS → isSubstr p.1 q.1 = false) := by
  constructor
  · decide
  · intro text cfg r lS lM p q hok hS hM hp hq
    obtain ⟨s, x, h1, h2, hr⟩ := findAll_elim cfg text r hok
    subst hr
    rw [runDns_dget_ne _ _ _ _ (by decide), runFile_dget_ne _ _ _ _ _ (by decide),
      runEmail_dget_ne _ _ _ _ (by decide), runIp_dget_ne cfg _ _ x h2 _ (by decide),
      runUri_dget_ne _ _ _ (by decide)] at hS hM
    exact hashes_no_substr cfg text s h1 lS lM hS hM p q hp hq

unseal pyReplace collapseWs findSub pySet uriUnits uriSeek wordRuns emailDom dnsGroups stitch fileScan reScan uriScanPos in
/-- C3, witness: the discard property applied to the concrete run of the
counterexample text, whose SHA1 and MD5 lists are both non-empty. -/
theorem c3_hash_order_and_discard_witness :
    isSubstr ("bbbbbbbbbbbbbbbbbbbbbbbbbbbbbbbb".data)
      ("aaaaaaaaaaaaaaaaaaaaaaaaaaaaaaaaaaaaaaaa".data) = false :=
  c3_hash_order_and_discard.2
    ("see aaaaaaaaaaaaaaaaaaaaaaaaaaaaaaaaaaaaaaaa bbbbbbbbbbbbbbbbbbbbbbbbbbbbbbbb now".data)
    defaultConfig
    [("SHA256", []),
     ("SHA1", [("aaaaaaaaaaaaaaaaaaaaaaaaaaaaaaaaaaaaaaaa".data,
                "aaaaaaaaaaaaaaaaaaaaaaaaaaaaaaaaaaaaaaaa".data)]),
     ("MD5", [("bbbbbbbbbbbbbbbbbbbbbbbbbbbbbbbb".data,
               "bbbbbbbbbbbbbbbbbbbbbbbbbbbbbbbb".data)]),
     ("URI", []), ("IP", []), ("Email", []), ("File", []), ("DNS", [])]
    [("aaaaaaaaaaaaaaaaaaaaaaaaaaaaaaaaaaaaaaaa".data,
      "aaaaaaaaaaaaaaaaaaaaaaaaaaaaaaaaaaaaaaaa".data)]
    [("bbbbbbbbbbbbbbbbbbbbbbbbbbbbbbbb".data,
      "bbbbbbbbbbbbbbbbbbbbbbbbbbbbbbbb".data)]
    ("bbbbbbbbbbbbbbbbbbbbbbbbbbbbbbbb".data,
     "bbbbbbbbbbbbbbbbbbbbbbbbbbbbbbbb".data)
    ("aaaaaaaaaaaaaaaaaaaaaaaaaaaaaaaaaaaaaaaa".data,
     "aaaaaaaaaaaaaaaaaaaaaaaaaaaaaaaaaaaaaaaa".data)
    (by decide) (by decide) (by decide) (by decide) (by decide)

theorem findAll_dget_outside (cfg : List IocEntry) (text : List Char) (r : Raw)
    (hok : findAllRawMatches cfg text = .ok r) (n : String)
    (hn : ¬ n ∈ stageNames) : dget r n = none := by
  simp only [stageNames, List.mem_cons, List.not_mem_nil, or_false, not_or] at hn
  obtain ⟨ha, hb, hc, hd, he, hf, hg, hh⟩ := hn
  obtain ⟨s, x, h1, h2, hr⟩ := findAll_elim cfg text r hok
  subst hr
  rw [runDns_dget_ne _ _ _ _ hh, runFile_dget_ne _ _ _ _ _ hg,
    runEmail_dget_ne _ _ _ _ hf, runIp_dget_ne cfg _ _ x h2 _ he,
    runUri_dget_ne _ _ _ hd]
  obtain ⟨s1, s2, g1, g2, g3⟩ := runHashes_elim cfg text s h1
  rw [runHashOne_dget_ne cfg "MD5" s2 s g3 n hc,
    runHashOne_dget_ne cfg "SHA1" s1 s2 g2 n hb,
    runHashOne_dget_ne cfg "SHA256" (text, [], []) s1 g1 n ha]
  rfl

theorem fill_dget_of_some (cfg : List IocEntry) (acc : Raw) (n : String)
    (v : List ((List Char) × (List Char))) (h0 : dget acc n = some v) :
    dget (fillMissing cfg acc) n = some v := by
  induction cfg generalizing acc with
  | nil => exact h0
  | cons e rest ih =>
    show dget (fillMissing rest (if dmem acc e.name then acc else dset acc e.name [])) n = some v
    by_cases hm : dmem acc e.name
    · rw [if_pos hm]; exact ih acc h0
    · rw [if_neg hm]
      refine ih _ ?_
      have hne : e.name ≠ n := by
        intro heq
        rw [heq] at hm
        exact hm (by unfold dmem; rw [h0]; rfl)
      rw [dget_dset_ne _ _ _ _ hne]
      exact h0

theorem fill_dget_of_none (cfg : List IocEntry) (acc : Raw) (n : String)
    (h0 : dget acc n = none) (hn : n ∈ cfg.map (·.name)) :
    dget (fillMissing cfg acc) n = some [] := by
  induction cfg generalizing acc with
  | nil => simp at hn
  | cons e rest ih =>
    show dget (fillMissing rest (if dmem acc e.name then acc else dset acc e.name [])) n = some []
    by_cases heq : e.name = n
    · have hm : ¬ dmem acc e.name := by
        rw [heq]; unfold dmem; rw [h0]; simp
      rw [if_neg hm]
      refine fill_dget_of_some rest _ n [] ?_
      rw [heq, dget_dset_self]
    · have hn' : n ∈ rest.map (·.name) := by
        simp only [List.map_cons, List.mem_cons] at hn
        rcases hn with h | h
        · exact absurd h.symm heq
        · exact h
      by_cases hm : dmem acc e.name
      · rw [if_pos hm]; exact ih acc h0 hn'
      · rw [if_neg hm]
        refine ih _ ?_ hn'
        rw [dget_dset_ne _ _ _ _ heq]
        exact h0

/-- C10: `parse` maps every configured category name that has no
extraction stage (the stages cover only SHA256, SHA1, MD5, URI, IP,
Email, File and DNS) to the empty list: `find_all_raw_matches` never
creates such a key and the final loop of `parse` fills it with `[]`.
In particular the default configuration's enabled `Registry` category
never yields a match. -/
theorem c10_unstaged_names_empty (text : List Char) (cfg : List IocEntry)
    (r : Raw) (n : String) (hok : pyParse cfg text = .ok r)
    (he : ∃ e ∈ cfg, e.name = n ∧ e.enabled = true)
    (hn : ¬ n ∈ stageNames) : dget r n = some [] := by
  unfold pyParse at hok
  cases h0 : findAllRawMatches cfg text with
  | error er => rw [h0] at hok; exact absurd hok (by simp [Bind.bind, Except.bind])
  | ok r0 =>
    rw [h0, okBind] at hok
    injection hok with hh
    rw [← hh]
    obtain ⟨e, hmem, hname, -⟩ := he
    exact fill_dget_of_none cfg r0 n (findAll_dget_outside cfg text r0 h0 n hn)
      (List.mem_map.mpr ⟨e, hmem, hname⟩)

unseal pyReplace collapseWs findSub pySet uriUnits uriSeek wordRuns emailDom dnsGroups stitch fileScan reScan uriScanPos in
/-- C10, witness: the theorem applied to the built-in default
configuration (whose `Registry` entry is enabled) on a concrete input. -/
theorem c10_unstaged_names_empty_witness :
    dget [("SHA256", ([] : List ((List Char) × (List Char)))), ("SHA1", []), ("MD5", []),
          ("URI", []), ("IP", []), ("Email", []), ("File", []), ("DNS", []),
          ("Registry", [])] "Registry" = some [] :=
  c10_unstaged_names_empty ("x".data) defaultConfig
    [("SHA256", []), ("SHA1", []), ("MD5", []), ("URI", []), ("IP", []),
     ("Email", []), ("File", []), ("DNS", []), ("Registry", [])]
    "Registry" (by decide) (by decide) (by decide)

theorem gqd_tail_sub (a : IocEntry) (rest : List IocEntry) (data : Raw)
    (g : QueryGroup) (hg : g ∈ generate_query_data rest data) :
    g ∈ generate_query_data (a :: rest) data := by
  rw [generate_query_data]
  split
  · split
    · split
      · dsimp only
        split
        · exact List.mem_cons_of_mem _ hg
        · exact hg
      · exact hg
    · exact hg
  · exact hg

/-- C5: for every enabled category with a non-empty result list and each
of its query templates, `generate_query_data` contains a query that
substitutes every normalized value into the `{ioc}` placeholder and
joins the instantiated strings with `" OR "` for MP10 and `" || "` for
NAD. -/
theorem c5_query_compiler (cfg : List IocEntry) (data : Raw) (e : IocEntry)
    (vs : List ((List Char) × (List Char))) (t : String)
    (he : e ∈ cfg) (hen : e.enabled = true) (hd : dget data e.name = some vs)
    (hne : vs ≠ []) :
    (t ∈ e.mp10_templates →
      ∃ g ∈ generate_query_data cfg data,
        (⟨e.name, "MP10", joinQueries (" OR ".data) t.data (vs.map (·.2)), false⟩ : QueryItem)
          ∈ g.queries) ∧
    (t ∈ e.nad_templates →
      ∃ g ∈ generate_query_data cfg data,
        (⟨e.name, "NAD", joinQueries (" || ".data) t.data (vs.map (·.2)), false⟩ : QueryItem)
          ∈ g.queries) := by
  have hq1 : ∀ u : String, u ∈ e.mp10_templates →
      (⟨e.name, "MP10", joinQueries (" OR ".data) u.data (vs.map (·.2)), false⟩ : QueryItem) ∈
        e.mp10_templates.map (fun w =>
          (⟨e.name, "MP10", joinQueries (" OR ".data) w.data (vs.map (·.2)), false⟩ : QueryItem)) :=
    fun u hu => List.mem_map.mpr ⟨u, hu, rfl⟩
  have hq2 : ∀ u : String, u ∈ e.nad_templates →
      (⟨e.name, "NAD", joinQueries (" || ".data) u.data (vs.map (·.2)), false⟩ : QueryItem) ∈
        e.nad_templates.map (fun w =>
          (⟨e.name, "NAD", joinQueries (" || ".data) w.data (vs.map (·.2)), false⟩ : QueryItem)) :=
    fun u hu => List.mem_map.mpr ⟨u, hu, rfl⟩
  induction cfg with
  | nil => simp at he
  | cons a rest ih =>
    rcases List.mem_cons.mp he with heq | hmem
    · subst heq
      have hhead : ∀ gq : List QueryItem,
          gq = e.mp10_templates.map (fun w =>
              (⟨e.name, "MP10", joinQueries (" OR ".data) w.data (vs.map (·.2)), false⟩ : QueryItem)) ++
            e.nad_templates.map (fun w =>
              (⟨e.name, "NAD", joinQueries (" || ".data) w.data (vs.map (·.2)), false⟩ : QueryItem)) →
          gq ≠ [] →
          (⟨e.name ++ " (" ++ e.report_type ++ ")", gq⟩ : QueryGroup) ∈
            generate_query_data (e :: rest) data := by
        intro gq hgq hnegq
        rw [generate_query_data]
        simp only [hen, if_true, hd]
        rw [if_pos hne, if_pos (hgq ▸ hnegq)]
        rw [hgq]
        exact List.mem_cons_self _ _
      constructor <;> intro ht
      · refine ⟨_, hhead _ rfl (List.ne_nil_of_mem (List.mem_append_left _ (hq1 t ht))), ?_⟩
        exact List.mem_append_left _ (hq1 t ht)
      · refine ⟨_, hhead _ rfl (List.ne_nil_of_mem (List.mem_append_right _ (hq2 t ht))), ?_⟩
        exact List.mem_append_right _ (hq2 t ht)
    · constructor <;> intro ht
      · obtain ⟨g, hg, hi⟩ := (ih hmem).1 ht
        exact ⟨g, gqd_tail_sub a rest data g hg, hi⟩
      · obtain ⟨g, hg, hi⟩ := (ih hmem).2 ht
        exact ⟨g, gqd_tail_sub a rest data g hg, hi⟩

unseal pyReplace collapseWs findSub pySet uriUnits uriSeek wordRuns emailDom dnsGroups stitch fileScan reScan uriScanPos in
/-- C5, witness: Scenario D — the template `src.ip = "{ioc}"` over the
normalized values `1.1.1.1` and `2.2.2.2` compiles to the merged
expression `src.ip = "1.1.1.1" OR src.ip = "2.2.2.2"`. -/
theorem c5_query_compiler_witness :
    ∃ g ∈ generate_query_data
      [{ name := "IP", enabled := true, rule := .ipv4, report_type := "IP-адрес",
         mp10_templates := ["src.ip = \"{ioc}\""] }]
      [("IP", [("1.1.1.1".data, "1.1.1.1".data), ("2.2.2.2".data, "2.2.2.2".data)])],
      (⟨"IP", "MP10", ("src.ip = \"1.1.1.1\" OR src.ip = \"2.2.2.2\"").data, false⟩ : QueryItem)
        ∈ g.queries := by
  have h := (c5_query_compiler
    [{ name := "IP", enabled := true, rule := .ipv4, report_type := "IP-адрес",
       mp10_templates := ["src.ip = \"{ioc}\""] }]
    [("IP", [("1.1.1.1".data, "1.1.1.1".data), ("2.2.2.2".data, "2.2.2.2".data)])]
    { name := "IP", enabled := true, rule := .ipv4, report_type := "IP-адрес",
      mp10_templates := ["src.ip = \"{ioc}\""] }
    [("1.1.1.1".data, "1.1.1.1".data), ("2.2.2.2".data, "2.2.2.2".data)]
    "src.ip = \"{ioc}\"" (by decide) rfl (by decide) (by decide)).1 (by decide)
  have heq : joinQueries (" OR ".data) (("src.ip = \"{ioc}\"" : String).data)
      ([(("1.1.1.1".data : List Char), ("1.1.1.1".data : List Char)),
        ("2.2.2.2".data, "2.2.2.2".data)].map (·.2)) =
      ("src.ip = \"1.1.1.1\" OR src.ip = \"2.2.2.2\"").data := by decide
  rw [← heq]
  exact h

theorem find?_congr_of_perm (p : IocEntry → Bool) (l1 l2 : List IocEntry)
    (hp : l1.Perm l2)
    (huniq : ∀ a ∈ l1, ∀ b ∈ l1, p a → p b → a = b) :
    l1.find? p = l2.find? p := by
  cases h1 : l1.find? p with
  | none =>
    cases h2 : l2.find? p with
    | none => rfl
    | some b =>
      have hb := List.find?_some h2
      have hbm : b ∈ l1 := hp.symm.subset (List.mem_of_find?_eq_some h2)
      rw [List.find?_eq_none] at h1
      exact absurd hb (h1 b hbm)
  | some a =>
    have ha := List.find?_some h1
    have ham := List.mem_of_find?_eq_some h1
    cases h2 : l2.find? p with
    | none =>
      rw [List.find?_eq_none] at h2
      exact absurd ha (h2 a (hp.subset ham))
    | some b =>
      have hb := List.find?_some h2
      have hbm : b ∈ l1 := hp.symm.subset (List.mem_of_find?_eq_some h2)
      rw [huniq a ham b hbm ha hb]

theorem runHashOne_congr (cfg1 cfg2 : List IocEntry) (h : String)
    (he : findCfg cfg1 h = findCfg cfg2 h)
    (st : List Char × List (List Char) × Raw) :
    runHashOne cfg1 h st = runHashOne cfg2 h st := by
  unfold runHashOne
  rw [he]

/-- C9: `find_all_raw_matches` reads the configuration only through
first-match-by-name lookups, so any two configurations that are
permutations of each other with pairwise distinct names produce
identical results on every input: the stage order is fixed and does not
depend on registry order. -/
theorem c9_registry_order_irrelevant (text : List Char)
    (cfg1 cfg2 : List IocEntry) (hperm : cfg1.Perm cfg2)
    (hnd : (cfg1.map (·.name)).Nodup) :
    findAllRawMatches cfg1 text = findAllRawMatches cfg2 text := by
  have huniq : ∀ (p : IocEntry → Bool), (∀ a b, p a → p b → a.name = b.name) →
      ∀ a ∈ cfg1, ∀ b ∈ cfg1, p a → p b → a = b := by
    intro p hpn a ha b hb hpa hpb
    exact List.inj_on_of_nodup_map hnd ha hb (hpn a b hpa hpb)
  have hfind : ∀ n : String, findCfg cfg1 n = findCfg cfg2 n := by
    intro n
    refine find?_congr_of_perm _ _ _ hperm (huniq _ ?_)
    intro a b hpa hpb
    simp only [Bool.and_eq_true, beq_iff_eq] at hpa hpb
    rw [hpa.1, hpb.1]
  have hfile : cfg1.find? (fun e => e.name == "File") =
      cfg2.find? (fun e => e.name == "File") := by
    refine find?_congr_of_perm _ _ _ hperm (huniq _ ?_)
    intro a b hpa hpb
    simp only [beq_iff_eq] at hpa hpb
    rw [hpa, hpb]
  have h256 : ∀ st, runHashOne cfg1 "SHA256" st = runHashOne cfg2 "SHA256" st :=
    runHashOne_congr cfg1 cfg2 "SHA256" (hfind "SHA256")
  have h1 : ∀ st, runHashOne cfg1 "SHA1" st = runHashOne cfg2 "SHA1" st :=
    runHashOne_congr cfg1 cfg2 "SHA1" (hfind "SHA1")
  have h5 : ∀ st, runHashOne cfg1 "MD5" st = runHashOne cfg2 "MD5" st :=
    runHashOne_congr cfg1 cfg2 "MD5" (hfind "MD5")
  have hhashes : ∀ t, runHashes cfg1 t = runHashes cfg2 t := by
    intro t
    unfold runHashes
    simp only [h256, h1, h5]
  have hip : ∀ w raw, runIp cfg1 w raw = runIp cfg2 w raw := by
    intro w raw
    unfold runIp
    rw [hfind "IP"]
  have hem : ∀ w raw, runEmail cfg1 w raw = runEmail cfg2 w raw := by
    intro w raw
    unfold runEmail
    rw [hfind "Email"]
  have hdns : ∀ w raw, runDns cfg1 w raw = runDns cfg2 w raw := by
    intro w raw
    unfold runDns
    rw [hfind "DNS"]
  have hfl : fileCfgOf cfg1 = fileCfgOf cfg2 := by
    unfold fileCfgOf
    rw [hfile]
  unfold findAllRawMatches
  simp only [hhashes, hip, hem, hdns, hfl]

unseal pyReplace collapseWs findSub pySet uriUnits uriSeek wordRuns emailDom dnsGroups stitch fileScan reScan uriScanPos in
/-- C9, witness: swapping two distinct-name entries leaves the result of
a concrete run unchanged. -/
theorem c9_registry_order_irrelevant_witness :
    findAllRawMatches
      [{ name := "IP", enabled := true, rule := .ipv4 },
       { name := "MD5", enabled := true, rule := .hexRun 32 }] ("1.2.3.4".data) =
    findAllRawMatches
      [{ name := "MD5", enabled := true, rule := .hexRun 32 },
       { name := "IP", enabled := true, rule := .ipv4 }] ("1.2.3.4".data) :=
  c9_registry_order_irrelevant ("1.2.3.4".data)
    [{ name := "IP", enabled := true, rule := .ipv4 },
     { name := "MD5", enabled := true, rule := .hexRun 32 }]
    [{ name := "MD5", enabled := true, rule := .hexRun 32 },
     { name := "IP", enabled := true, rule := .ipv4 }]
    (by decide) (by decide)

theorem uriUnits_le (cs : List Char) : uriUnits cs ≤ cs.length := by
  induction cs using uriUnits.induct with
  | case1 d1 d2 rest2 h ih =>
    rw [uriUnits, if_pos h]
    have hne : rest2 ≠ [] := by
      intro he
      rw [he] at h
      simp at h
    have htl : rest2.tail.length + 1 = rest2.length := by
      cases rest2 with
      | nil => exact absurd rfl hne
      | cons a t => simp
    simp only [List.length_cons]
    omega
  | case2 d1 d2 rest2 h1 h2 ih =>
    rw [uriUnits, if_neg h1, if_pos h2]
    simp only [List.length_cons]
    omega
  | case3 d1 d2 rest2 h1 h2 =>
    rw [uriUnits, if_neg h1, if_neg h2]
    simp
  | case4 c rest hx h ih =>
    rw [uriUnits]
    · rw [if_pos h]
      simp only [List.length_cons]
      omega
    · exact hx
  | case5 c rest hx h =>
    rw [uriUnits]
    · rw [if_neg h]
      simp
    · exact hx
  | case6 => rw [uriUnits]; simp

theorem uriSeek_hit (cs : List Char)
    (hx : ("[:]//".data).isPrefixOf cs = true ∧ uriUnits (cs.drop 5) ≥ 1) :
    uriSeek cs = some (5 + uriUnits (cs.drop 5)) := by
  rw [uriSeek.eq_def, if_pos hx]

theorem uriSeek_cons (c : Char) (rest : List Char)
    (hnx : ¬(("[:]//".data).isPrefixOf (c :: rest) = true ∧
      uriUnits ((c :: rest).drop 5) ≥ 1)) :
    uriSeek (c :: rest) = if uriBodyCh c then (uriSeek rest).map (· + 1) else none := by
  rw [uriSeek.eq_def, if_neg hnx]

theorem uriSeek_le (cs : List Char) :
    ∀ L, uriSeek cs = some L → L ≤ cs.length := by
  induction cs using uriSeek.induct with
  | case1 x hx =>
    intro L h
    rw [uriSeek_hit x hx] at h
    injection h with hL
    have h5 : 5 ≤ x.length := by
      have := (List.isPrefixOf_iff_prefix.mp hx.1).length_le
      simpa using this
    have := uriUnits_le (x.drop 5)
    simp only [List.length_drop] at this
    omega
  | case2 c rest hb hnx ih =>
    intro L h
    rw [uriSeek_cons c rest hnx, if_pos hb] at h
    cases hr : uriSeek rest with
    | none => rw [hr] at h; simp at h
    | some L2 =>
      rw [hr] at h
      have h2 : some (L2 + 1) = some L := h
      injection h2 with hL
      have := ih L2 hr
      simp only [List.length_cons]
      omega
  | case3 c rest hb hnx =>
    intro L h
    rw [uriSeek_cons c rest hnx, if_neg hb] at h
    exact absurd h (by simp)
  | case4 hnx =>
    intro L h
    rw [uriSeek.eq_def, if_neg hnx] at h
    exact absurd h (by simp)

theorem uriMatchAt_le (prev : Option Char) (cs : List Char) (m : Nat)
    (h : uriMatchAt prev cs = some m) : m ≤ cs.length := by
  cases cs with
  | nil => rw [uriMatchAt] at h; exact absurd h (by simp)
  | cons c rest =>
    rw [uriMatchAt] at h
    by_cases hc : isAsciiAlnum c && !(wordOpt prev)
    · rw [if_pos hc] at h
      cases hr : uriSeek rest with
      | none => rw [hr] at h; simp at h
      | some L =>
        rw [hr] at h
        have h2 : some (L + 1) = some m := h
        injection h2 with hL
        have := uriSeek_le rest L hr
        simp only [List.length_cons]
        omega
    · rw [if_neg hc] at h
      exact absurd h (by simp)

theorem uriScanPos_hit (prev : Option Char) (c : Char) (rest : List Char)
    (i n : Nat) (hm : uriMatchAt prev (c :: rest) = some (n + 1)) :
    uriScanPos prev (c :: rest) i = (i, n + 1) ::
      uriScanPos ((c :: rest).get? n) ((c :: rest).drop (n + 1)) (i + n + 1) := by
  conv_lhs => rw [uriScanPos.eq_def]
  dsimp only
  rw [hm]

theorem uriScanPos_miss (prev : Option Char) (c : Char) (rest : List Char)
    (i : Nat) (hnm : ∀ n, uriMatchAt prev (c :: rest) ≠ some (n + 1)) :
    uriScanPos prev (c :: rest) i = uriScanPos (some c) rest (i + 1) := by
  conv_lhs => rw [uriScanPos.eq_def]
  dsimp only
  cases hm : uriMatchAt prev (c :: rest) with
  | none => rfl
  | some k =>
    cases k with
    | zero => rfl
    | succ n => exact absurd hm (hnm n)

theorem uriScanPos_bounds (prev : Option Char) (cs : List Char) (i0 : Nat) :
    ∀ sp ∈ uriScanPos prev cs i0, i0 ≤ sp.1 ∧ sp.1 + sp.2 ≤ i0 + cs.length := by
  induction prev, cs, i0 using uriScanPos.induct with
  | case1 x i => intro sp hsp; rw [uriScanPos] at hsp; simp at hsp
  | case2 prev c rest i n hm ih =>
    intro sp hsp
    rw [uriScanPos_hit prev c rest i n hm] at hsp
    have hmle := uriMatchAt_le prev (c :: rest) (n + 1) hm
    rcases List.mem_cons.mp hsp with rfl | hsp2
    · exact ⟨le_refl _, by omega⟩
    · have hb := ih sp hsp2
      have hlen : (List.drop (n + 1) (c :: rest)).length = (c :: rest).length - (n + 1) :=
        List.length_drop ..
      exact ⟨by omega, by omega⟩
  | case3 prev c rest i hnm ih =>
    intro sp hsp
    rw [uriScanPos_miss prev c rest i (fun n hc => hnm n hc)] at hsp
    have hb := ih sp hsp
    simp only [List.length_cons]
    omega

theorem blankSpan_length (b : List Char) (s n : Nat) (h : s + n ≤ b.length) :
    (blankSpan b s n).length = b.length := by
  simp only [blankSpan, List.length_append, List.length_take, List.length_drop,
    spaces, List.length_replicate]
  omega

theorem foldl_blankSpan_length (l : List (Nat × Nat)) (b : List Char)
    (h : ∀ sp ∈ l, sp.1 + sp.2 ≤ b.length) :
    (l.foldl (fun b sp => blankSpan b sp.1 sp.2) b).length = b.length := by
  induction l generalizing b with
  | nil => rfl
  | cons sp l ih =>
    rw [List.foldl_cons]
    have h1 : (blankSpan b sp.1 sp.2).length = b.length :=
      blankSpan_length b sp.1 sp.2 (h sp (List.mem_cons_self sp l))
    rw [ih (blankSpan b sp.1 sp.2) (fun q hq => h1 ▸ h q (List.mem_cons_of_mem sp hq)), h1]

theorem runUri_len (w : List Char) (raw : Raw) :
    ((runUri w raw).1).length = w.length := by
  unfold runUri
  dsimp only
  apply foldl_blankSpan_length
  intro sp hsp
  have := uriScanPos_bounds none w 0 sp (List.mem_reverse.mp hsp)
  omega

theorem runHashOne_len (cfg : List IocEntry) (h : String)
    (st st' : List Char × List (List Char) × Raw)
    (hok : runHashOne cfg h st = .ok st') : st'.1.length = st.1.length := by
  rcases runHashOne_elim cfg h st st' hok with ⟨_, rfl⟩ | ⟨e, ms, _, _, rfl⟩
  · rfl
  · exact hashFold_fst_length h (pySet ms) st.1 st.2.1

theorem runHashes_len (cfg : List IocEntry) (text : List Char)
    (s : List Char × List (List Char) × Raw)
    (hok : runHashes cfg text = .ok s) : s.1.length = text.length := by
  rcases runHashes_elim cfg text s hok with ⟨s1, s2, h1, h2, h3⟩
  rw [runHashOne_len cfg "MD5" s2 s h3, runHashOne_len cfg "SHA1" s1 s2 h2,
    runHashOne_len cfg "SHA256" (text, [], []) s1 h1]

theorem runIp_len (cfg : List IocEntry) (w : List Char) (raw : Raw)
    (r : List Char × Raw) (hok : runIp cfg w raw = .ok r) : r.1.length = w.length := by
  unfold runIp at hok
  cases hf : findCfg cfg "IP" with
  | none =>
    simp only [hf] at hok
    injection hok with hh
    rw [← hh]
  | some e =>
    simp only [hf] at hok
    cases hm : runFindall e.rule w with
    | error er => rw [hm] at hok; exact absurd hok (by simp [Bind.bind, Except.bind])
    | ok ms =>
      rw [hm, okBind] at hok
      injection hok with hh
      rw [← hh]
      exact consumeFold_fst_length "IP" (pySet ms) w

theorem runEmail_len (cfg : List IocEntry) (w : List Char) (raw : Raw) :
    ((runEmail cfg w raw).1).length = w.length := by
  unfold runEmail
  cases findCfg cfg "Email" with
  | none => rfl
  | some e => exact consumeFold_fst_length "Email" _ w

theorem runFile_len (blacklist exclusions : List String) (w : List Char) (raw : Raw) :
    ((runFile blacklist exclusions w raw).1).length = w.length := by
  unfold runFile
  dsimp only
  generalize (fileScan w 0).filterMap _ = ps
  induction ps generalizing w with
  | nil => rfl
  | cons p ps ih =>
    rw [List.foldl_cons]
    have h1 : (pyReplace w ('«' :: p.1 ++ ['»']) (spaces (p.1.length + 2))).length
        = w.length := by
      apply pyReplace_length
      simp [spaces]
    rw [ih _, h1]

theorem runDns_len (cfg : List IocEntry) (w : List Char) (raw : Raw) :
    ((runDns cfg w raw).1).length = w.length := by
  unfold runDns
  cases findCfg cfg "DNS" with
  | none => rfl
  | some e => exact consumeFold_fst_length "DNS" _ w

unseal pyReplace collapseWs findSub pySet uriUnits uriSeek wordRuns emailDom dnsGroups stitch fileScan reScan uriScanPos in
/-- Claim C8 counterexample: the buffer does not keep the input's length
throughout the run.  On the 5-character input `ab\ncd` the hash stage
preserves the buffer, but the inter-stage stitching substitution deletes
the newline (the whitespace between the `b` and the `c`), so the buffer
entering the URI stage has length 4. -/
theorem c8_counterexample :
    (runHashes defaultConfig ("ab\ncd".data)).map (fun s => (stitch s.1).length)
        = .ok 4 ∧ ("ab\ncd".data).length = 5 := by
  exact ⟨by decide, by decide⟩

/-- Claim C8 (amended): every category stage of `find_all_raw_matches`
preserves the working buffer's length exactly — each consumed span is
overwritten with whitespace of identical length and the stage removes no
character — but the claim's "same length throughout one extraction run"
fails at the stitching substitution applied between the hash stage and
the URI stage, which deletes whitespace around a stitched newline
(see the counterexample). -/
theorem c8_blanking_preserves_length :
    (∀ cfg text s, runHashes cfg text = .ok s → s.1.length = text.length) ∧
    (∀ w raw, ((runUri w raw).1).length = w.length) ∧
    (∀ cfg w raw r, runIp cfg w raw = .ok r → r.1.length = w.length) ∧
    (∀ cfg w raw, ((runEmail cfg w raw).1).length = w.length) ∧
    (∀ bl ex w raw, ((runFile bl ex w raw).1).length = w.length) ∧
    (∀ cfg w raw, ((runDns cfg w raw).1).length = w.length) :=
  ⟨runHashes_len, runUri_len, runIp_len, runEmail_len, runFile_len, runDns_len⟩

unseal pyReplace collapseWs findSub pySet uriUnits uriSeek wordRuns emailDom dnsGroups stitch fileScan reScan uriScanPos in
/-- Witness for the amended C8 theorem: a concrete successful hash run
(a lone MD5 token, whose 32-character span is blanked) and a concrete
successful IP run, each with the buffer length preserved. -/
theorem c8_blanking_preserves_length_witness :
    runHashes defaultConfig ("d41d8cd98f00b204e9800998ecf8427e".data)
        = .ok (spaces 32, ["d41d8cd98f00b204e9800998ecf8427e".data],
            [("SHA256", []), ("SHA1", []),
             ("MD5", [("d41d8cd98f00b204e9800998ecf8427e".data,
                       "d41d8cd98f00b204e9800998ecf8427e".data)])]) ∧
    (spaces 32).length = ("d41d8cd98f00b204e9800998ecf8427e".data).length ∧
    runIp defaultConfig ("ab".data) [] = .ok ("ab".data, [("IP", [])]) ∧
    ("ab".data).length = ("ab".data).length := by
  refine ⟨by decide, ?_, by decide, ?_⟩
  · exact c8_blanking_preserves_length.1 defaultConfig
      ("d41d8cd98f00b204e9800998ecf8427e".data)
      (spaces 32, ["d41d8cd98f00b204e9800998ecf8427e".data],
        [("SHA256", []), ("SHA1", []),
         ("MD5", [("d41d8cd98f00b204e9800998ecf8427e".data,
                   "d41d8cd98f00b204e9800998ecf8427e".data)])]) (by decide)
  · exact c8_blanking_preserves_length.2.2.1 defaultConfig ("ab".data) []
      ("ab".data, [("IP", [])]) (by decide)

theorem takeWhile_all (p : Char → Bool) (a : List Char) (ha : a.all p = true) :
    a.takeWhile p = a := by
  induction a with
  | nil => rfl
  | cons c t ih =>
    simp only [List.all_cons, Bool.and_eq_true] at ha
    simp [List.takeWhile_cons, ha.1, ih ha.2]

theorem takeWhile_append_stop (p : Char → Bool) (a : List Char) (c : Char)
    (b : List Char) (ha : a.all p = true) (hc : p c = false) :
    (a ++ c :: b).takeWhile p = a := by
  induction a with
  | nil => simp [List.takeWhile_cons, hc]
  | cons x t ih =>
    simp only [List.all_cons, Bool.and_eq_true] at ha
    simp [List.takeWhile_cons, ha.1, ih ha.2]

theorem not_ws_of_digit (c : Char) (h : isAsciiDigit c = true) : isPyWs c = false := by
  simp only [isAsciiDigit, Bool.and_eq_true, decide_eq_true_eq] at h
  obtain ⟨h1, h2⟩ := h
  simp only [isPyWs, Bool.or_eq_false_iff, decide_eq_false_iff_not]
  refine ⟨⟨⟨⟨⟨?_, ?_⟩, ?_⟩, ?_⟩, ?_⟩, ?_⟩ <;> (intro hcon; subst hcon; revert h1 h2; decide)

theorem portAfterColon_spec (proto host port path : List Char)
    (hp : port ≠ []) (hpc : port.all isAsciiDigit = true)
    (hpath : path = [] ∨ (path.head? = some '/' ∧ '\n' ∉ path)) :
    portAfterColon proto host (port ++ path) = some (proto, host, path) := by
  unfold portAfterColon
  dsimp only
  rcases hpath with rfl | ⟨hhd, hnl⟩
  · rw [List.append_nil, takeWhile_all isAsciiDigit port hpc, if_neg hp,
      List.drop_length, if_pos rfl]
  · cases path with
    | nil => simp at hhd
    | cons c pt =>
      have hc : c = '/' := by simpa using hhd
      subst hc
      rw [takeWhile_append_stop isAsciiDigit port '/' pt hpc (by decide),
        if_neg hp, List.drop_left]
      rw [if_neg (by simp : ¬('/' :: pt = ([] : List Char))),
        if_neg (by simp : ¬('/' :: pt = ['\n'])),
        if_pos hhd]
      have hgl : ¬(('/' :: pt).getLast? = some '\n') := by
        intro hg
        rcases List.mem_getLast?_eq_getLast hg with ⟨hne, hEq⟩
        exact hnl (hEq ▸ List.getLast_mem hne)
      rw [if_neg hgl, if_neg hnl]

theorem portMatch_full (host port path : List Char)
    (hh : host ≠ []) (hhc : host.all hostCls = true)
    (hp : port ≠ []) (hpc : port.all isAsciiDigit = true)
    (hpath : path = [] ∨ (path.head? = some '/' ∧ '\n' ∉ path)) :
    portMatch ("http://".data ++ (host ++ (':' :: (port ++ path))))
      = some ("http://".data, host, path) := by
  have h1 : ("https://".data).isPrefixOf
      ("http://".data ++ (host ++ (':' :: (port ++ path)))) = false := rfl
  have h2 : ("http://".data).isPrefixOf
      ("http://".data ++ (host ++ (':' :: (port ++ path)))) = true :=
    List.isPrefixOf_iff_prefix.mpr (List.prefix_append _ _)
  have h3 : ("http://".data ++ (host ++ (':' :: (port ++ path)))).drop 7
      = host ++ (':' :: (port ++ path)) := rfl
  unfold portMatch
  simp only [h1, h2, Bool.false_eq_true, if_false, eq_self_iff_true, if_true]
  rw [if_neg (show ¬(("http://".data : List Char) = []) from by decide)]
  rw [h3]
  rw [takeWhile_append_stop hostCls host ':' (port ++ path) hhc (by decide)]
  rw [if_neg hh, List.drop_left]
  change portAfterColon ("http://".data) host (port ++ path)
      = some ("http://".data, host, path)
  exact portAfterColon_spec ("http://".data) host port path hp hpc hpath

theorem findSub_cons_neg (c : Char) (s pat : List Char)
    (h : pat.isPrefixOf (c :: s) = false) :
    findSub (c :: s) pat = (findSub s pat).map (· + 1) := by
  rw [findSub.eq_def, h]
  simp only [Bool.false_eq_true, if_false]

theorem findSub_cons_pos (s pat : List Char) (h : pat.isPrefixOf s = true) :
    findSub s pat = some 0 := by
  rw [findSub.eq_def, h]
  simp only [if_true]

theorem findSub_http (X : List Char) :
    findSub ("http://".data ++ X) ("://".data) = some 4 := by
  change findSub ('h' :: ("ttp://".data ++ X)) ("://".data) = some 4
  rw [findSub_cons_neg 'h' ("ttp://".data ++ X) ("://".data) rfl]
  change (findSub ('t' :: ("tp://".data ++ X)) ("://".data)).map (· + 1) = some 4
  rw [findSub_cons_neg 't' ("tp://".data ++ X) ("://".data) rfl]
  change ((findSub ('t' :: ("p://".data ++ X)) ("://".data)).map (· + 1)).map (· + 1)
      = some 4
  rw [findSub_cons_neg 't' ("p://".data ++ X) ("://".data) rfl]
  change (((findSub ('p' :: ("://".data ++ X)) ("://".data)).map (· + 1)).map
      (· + 1)).map (· + 1) = some 4
  rw [findSub_cons_neg 'p' ("://".data ++ X) ("://".data) rfl]
  change ((((findSub (':' :: ('/' :: ('/' :: X))) ("://".data)).map (· + 1)).map
      (· + 1)).map (· + 1)).map (· + 1) = some 4
  rw [findSub_cons_pos (':' :: ('/' :: ('/' :: X))) ("://".data)
    (List.isPrefixOf_iff_prefix.mpr (List.prefix_append ("://".data) X))]
  rfl

unseal pyReplace collapseWs findSub pySet uriUnits uriSeek wordRuns emailDom dnsGroups stitch fileScan reScan uriScanPos in
/-- Claim C4 counterexample: `clean_ioc` strips the `:8080` port segment
of a URI even though the meaningful path `/a` follows it, contradicting
the claim that the port is kept whenever a meaningful path follows. -/
theorem c4_counterexample :
    clean_ioc ("http://evil.com:8080/a".data) "URI" = "http://evil.com/a".data := by
  decide

unseal pyReplace collapseWs findSub pySet uriUnits uriSeek wordRuns emailDom dnsGroups stitch fileScan reScan uriScanPos in
/-- Claim C4 (amended): for every URI matching the port pattern
`^(https?://)(host)(:digits)(/path)?$` — hereafter a well-formed host, a
non-empty digit port, and either no path or a path starting with `/`,
free of newlines and brackets and not ending in whitespace — `clean_ioc`
removes the port segment unconditionally, whether or not a meaningful
path follows it: the normalized value is `protocol + host + path`. -/
theorem c4_port_stripped_even_with_path (host port path : List Char)
    (hh : host ≠ []) (hhc : host.all hostCls = true)
    (hp : port ≠ []) (hpc : port.all isAsciiDigit = true)
    (hpath : path = [] ∨ (path.head? = some '/' ∧ '\n' ∉ path ∧ '[' ∉ path ∧
      ']' ∉ path ∧ (path.getLast?.all fun c => !isPyWs c) = true)) :
    clean_ioc ("http://".data ++ (host ++ (':' :: (port ++ path)))) "URI"
      = "http://".data ++ (host ++ path) := by
  have hbL : '[' ∉ path := by
    rcases hpath with rfl | ⟨_, _, h, _, _⟩
    · simp
    · exact h
  have hbR : ']' ∉ path := by
    rcases hpath with rfl | ⟨_, _, _, h, _⟩
    · simp
    · exact h
  have hpath' : path = [] ∨ (path.head? = some '/' ∧ '\n' ∉ path) := by
    rcases hpath with rfl | ⟨h1, h2, _⟩
    · exact Or.inl rfl
    · exact Or.inr ⟨h1, h2⟩
  have hnotL : '[' ∉ ("http://".data ++ (host ++ (':' :: (port ++ path)))) := by
    intro hmem
    simp only [List.mem_append, List.mem_cons] at hmem
    rcases hmem with h | h | h | h | h
    · revert h; decide
    · exact absurd (List.all_eq_true.mp hhc '[' h) (by decide)
    · exact absurd h (by decide)
    · exact absurd (List.all_eq_true.mp hpc '[' h) (by decide)
    · exact hbL h
  have hnotR : ']' ∉ ("http://".data ++ (host ++ (':' :: (port ++ path)))) := by
    intro hmem
    simp only [List.mem_append, List.mem_cons] at hmem
    rcases hmem with h | h | h | h | h
    · revert h; decide
    · exact absurd (List.all_eq_true.mp hhc ']' h) (by decide)
    · exact absurd h (by decide)
    · exact absurd (List.all_eq_true.mp hpc ']' h) (by decide)
    · exact hbR h
  have hstrip : pyStrip ("http://".data ++ (host ++ (':' :: (port ++ path))))
      = "http://".data ++ (host ++ (':' :: (port ++ path))) := by
    apply pyStrip_noop
    · intro c hc
      rw [show ("http://".data ++ (host ++ (':' :: (port ++ path)))).head?
          = some 'h' from rfl] at hc
      injection hc with hch
      rw [← hch]
      decide
    · intro c hc
      have hYne : (port ++ path) ≠ [] := fun hcon => hp (List.append_eq_nil.mp hcon).1
      have hXne : (host ++ (':' :: (port ++ path))) ≠ [] :=
        fun hcon => hh (List.append_eq_nil.mp hcon).1
      rw [List.getLast?_append_of_ne_nil _ hXne, List.getLast?_append_cons] at hc
      have hcast : (':' :: (port ++ path)).getLast? = (port ++ path).getLast? :=
        List.getLast?_append_of_ne_nil [':'] hYne
      rw [hcast] at hc
      rcases hpath with rfl | ⟨h1, _, _, _, hlast⟩
      · rw [List.append_nil] at hc
        rcases List.mem_getLast?_eq_getLast hc with ⟨hne, hEq⟩
        have hcm : c ∈ port := hEq ▸ List.getLast_mem hne
        exact not_ws_of_digit c (List.all_eq_true.mp hpc c hcm)
      · have hpne : path ≠ [] := by
          intro hcon
          subst hcon
          simp at h1
        rw [List.getLast?_append_of_ne_nil port hpne] at hc
        rw [hc] at hlast
        simpa [Option.all] using hlast
  unfold clean_ioc
  dsimp only
  rw [if_neg (show ¬(("URI" : String) = "File") from by decide)]
  rw [hstrip]
  rw [pyReplace_noop ("http://".data ++ (host ++ (':' :: (port ++ path))))
      ("[.]".data) (".".data) '[' rfl hnotL]
  rw [pyReplace_noop ("http://".data ++ (host ++ (':' :: (port ++ path))))
      ("[:]".data) (":".data) '[' rfl hnotL]
  rw [pyReplace_noop ("http://".data ++ (host ++ (':' :: (port ++ path))))
      ("[".data) [] '[' rfl hnotL]
  rw [pyReplace_noop ("http://".data ++ (host ++ (':' :: (port ++ path))))
      ("]".data) [] ']' rfl hnotR]
  rw [if_pos (show ("URI" : String) = "URI" from rfl)]
  have hsf : schemeFix ("http://".data ++ (host ++ (':' :: (port ++ path))))
      = "http://".data ++ (host ++ (':' :: (port ++ path))) := by
    unfold schemeFix
    rw [findSub_http (host ++ (':' :: (port ++ path)))]
    rfl
  rw [hsf]
  unfold portStrip
  rw [portMatch_full host port path hh hhc hp hpc hpath']
  rfl

/-- Witness for the amended C4 theorem at a concrete URI with port and
meaningful path. -/
theorem c4_port_stripped_even_with_path_witness :
    clean_ioc ("http://e.x:1/p".data) "URI" = "http://e.x/p".data := by
  have h := c4_port_stripped_even_with_path ("e.x".data) ("1".data) ("/p".data)
    (by decide) (by decide) (by decide) (by decide)
    (Or.inr ⟨by decide, by decide, by decide, by decide, by decide⟩)
  exact h

theorem collapseWs_nil : collapseWs [] = [] := by rw [collapseWs]

theorem collapseWs_cons_ws (c : Char) (cs : List Char) (h : isPyWs c = true) :
    collapseWs (c :: cs) = ' ' :: collapseWs (cs.dropWhile isPyWs) := by
  rw [collapseWs.eq_def]
  dsimp only
  rw [if_pos h]

theorem collapseWs_cons_not (c : Char) (cs : List Char) (h : isPyWs c = false) :
    collapseWs (c :: cs) = c :: collapseWs cs := by
  rw [collapseWs.eq_def]
  dsimp only
  rw [if_neg (by simp [h])]

theorem mem_collapseWs (y : List Char) (c : Char) :
    c ∈ collapseWs y → c = ' ' ∨ c ∈ y := by
  induction y using collapseWs.induct with
  | case1 => intro h; rw [collapseWs_nil] at h; simp at h
  | case2 c0 cs hws ih =>
    intro h
    rw [collapseWs_cons_ws c0 cs hws] at h
    rcases List.mem_cons.mp h with rfl | h2
    · exact Or.inl rfl
    · rcases ih h2 with h3 | h3
      · exact Or.inl h3
      · exact Or.inr (List.mem_cons_of_mem c0 ((List.dropWhile_sublist isPyWs).mem h3))
  | case3 c0 cs hws ih =>
    intro h
    rw [collapseWs_cons_not c0 cs (by simpa using hws)] at h
    rcases List.mem_cons.mp h with rfl | h2
    · exact Or.inr (List.mem_cons_self _ _)
    · rcases ih h2 with h3 | h3
      · exact Or.inl h3
      · exact Or.inr (List.mem_cons_of_mem c0 h3)

theorem collapseWs_head (y : List Char) (d : Char) (hy : y.head? = some d)
    (hd : isPyWs d = false) : (collapseWs y).head? = some d := by
  cases y with
  | nil => simp at hy
  | cons c cs =>
    have hcd : c = d := by simpa using hy
    subst hcd
    rw [collapseWs_cons_not c cs hd]
    rfl

theorem getLast?_cons_ne (c : Char) (l : List Char) (h : l ≠ []) :
    (c :: l).getLast? = l.getLast? := by
  cases l with
  | nil => exact absurd rfl h
  | cons a t => exact List.getLast?_cons_cons

theorem ne_nil_of_getLast? (l : List Char) (d : Char) (h : l.getLast? = some d) :
    l ≠ [] := by
  intro hcon
  subst hcon
  simp at h

theorem getLast?_dropWhile (p : Char → Bool) (l : List Char) (d : Char) :
    l.getLast? = some d → p d = false → (l.dropWhile p).getLast? = some d := by
  induction l with
  | nil => intro h _; simp at h
  | cons a t ih =>
    intro h hd
    by_cases hp : p a = true
    · rw [List.dropWhile_cons, if_pos hp]
      cases htn : t with
      | nil =>
        subst htn
        have had : a = d := by simpa using h
        subst had
        exact absurd hp (by simp [hd])
      | cons b t2 =>
        subst htn
        rw [List.getLast?_cons_cons] at h
        exact ih h hd
    · rw [List.dropWhile_cons, if_neg hp]
      exact h

theorem collapseWs_getLast (y : List Char) (d : Char) :
    y.getLast? = some d → isPyWs d = false → (collapseWs y).getLast? = some d := by
  induction y using collapseWs.induct with
  | case1 => intro hy _; simp at hy
  | case2 c cs hws ih =>
    intro hy hd
    rw [collapseWs_cons_ws c cs hws]
    cases htn : cs with
    | nil =>
      subst htn
      have hcd : c = d := by simpa using hy
      subst hcd
      exact absurd hws (by simp [hd])
    | cons b t2 =>
      subst htn
      rw [List.getLast?_cons_cons] at hy
      have hdw : ((b :: t2).dropWhile isPyWs).getLast? = some d :=
        getLast?_dropWhile isPyWs _ d hy hd
      have hinner := ih hdw hd
      rw [getLast?_cons_ne ' ' _ (ne_nil_of_getLast? _ d hinner)]
      exact hinner
  | case3 c cs hws ih =>
    intro hy hd
    rw [collapseWs_cons_not c cs (by simpa using hws)]
    cases htn : cs with
    | nil =>
      subst htn
      have hcd : c = d := by simpa using hy
      subst hcd
      rw [collapseWs_nil]
      simp
    | cons b t2 =>
      subst htn
      rw [List.getLast?_cons_cons] at hy
      have hinner := ih hy hd
      rw [getLast?_cons_ne c _ (ne_nil_of_getLast? _ d hinner)]
      exact hinner

theorem collapseWs_dropWhile_self (y : List Char) :
    (collapseWs (y.dropWhile isPyWs)).dropWhile isPyWs
      = collapseWs (y.dropWhile isPyWs) := by
  cases hY : y.dropWhile isPyWs with
  | nil => rw [collapseWs_nil]; rfl
  | cons d t =>
    have h0 := List.head?_dropWhile_not isPyWs y
    rw [hY] at h0
    have hhd : isPyWs d = false := by simpa using h0
    rw [collapseWs_cons_not d t hhd, List.dropWhile_cons, if_neg (by simp [hhd])]

theorem collapseWs_idem (y : List Char) :
    collapseWs (collapseWs y) = collapseWs y := by
  induction y using collapseWs.induct with
  | case1 => rw [collapseWs_nil, collapseWs_nil]
  | case2 c cs hws ih =>
    rw [collapseWs_cons_ws c cs hws]
    rw [collapseWs_cons_ws ' ' _ (by decide)]
    rw [collapseWs_dropWhile_self cs]
    rw [ih]
  | case3 c cs hws ih =>
    have hf : isPyWs c = false := by simpa using hws
    rw [collapseWs_cons_not c cs hf]
    rw [collapseWs_cons_not c _ hf]
    rw [ih]

theorem not_ws_of_hostCls (c : Char) (h : hostCls c = true) : isPyWs c = false := by
  simp only [isPyWs, Bool.or_eq_false_iff, decide_eq_false_iff_not]
  refine ⟨⟨⟨⟨⟨?_, ?_⟩, ?_⟩, ?_⟩, ?_⟩, ?_⟩ <;> (intro hcon; subst hcon; revert h; decide)

theorem clean_ioc_eq_other (x : List Char) (c : String) (hf : ¬(c = "File"))
    (hu : ¬(c = "URI")) (hL : '[' ∉ x) (hR : ']' ∉ x) : clean_ioc x c = pyStrip x := by
  have hL1 : '[' ∉ pyStrip x := fun h => hL (mem_pyStrip x '[' h)
  have hR1 : ']' ∉ pyStrip x := fun h => hR (mem_pyStrip x ']' h)
  unfold clean_ioc
  dsimp only
  rw [if_neg hf, if_neg hu]
  rw [pyReplace_noop (pyStrip x) ("[.]".data) (".".data) '[' rfl hL1]
  rw [pyReplace_noop (pyStrip x) ("[:]".data) (":".data) '[' rfl hL1]
  rw [pyReplace_noop (pyStrip x) ("[".data) [] '[' rfl hL1]
  rw [pyReplace_noop (pyStrip x) ("]".data) [] ']' rfl hR1]

theorem clean_ioc_eq_file (x : List Char) (hL : '[' ∉ x) (hR : ']' ∉ x) :
    clean_ioc x "File" = collapseWs (pyStrip x) := by
  have hL1 : '[' ∉ collapseWs (pyStrip x) := by
    intro h
    rcases mem_collapseWs _ '[' h with h2 | h2
    · exact absurd h2 (by decide)
    · exact hL (mem_pyStrip x '[' h2)
  have hR1 : ']' ∉ collapseWs (pyStrip x) := by
    intro h
    rcases mem_collapseWs _ ']' h with h2 | h2
    · exact absurd h2 (by decide)
    · exact hR (mem_pyStrip x ']' h2)
  unfold clean_ioc
  dsimp only
  rw [if_pos (show ("File" : String) = "File" from rfl)]
  rw [if_neg (show ¬(("File" : String) = "URI") from by decide)]
  rw [pyReplace_noop (collapseWs (pyStrip x)) ("[.]".data) (".".data) '[' rfl hL1]
  rw [pyReplace_noop (collapseWs (pyStrip x)) ("[:]".data) (":".data) '[' rfl hL1]
  rw [pyReplace_noop (collapseWs (pyStrip x)) ("[".data) [] '[' rfl hL1]
  rw [pyReplace_noop (collapseWs (pyStrip x)) ("]".data) [] ']' rfl hR1]

theorem clean_ioc_eq_uri (x : List Char) (hL : '[' ∉ x) (hR : ']' ∉ x) :
    clean_ioc x "URI" = portStrip (schemeFix (pyStrip x)) := by
  have hL1 : '[' ∉ pyStrip x := fun h => hL (mem_pyStrip x '[' h)
  have hR1 : ']' ∉ pyStrip x := fun h => hR (mem_pyStrip x ']' h)
  unfold clean_ioc
  dsimp only
  rw [if_neg (show ¬(("URI" : String) = "File") from by decide)]
  rw [if_pos (show ("URI" : String) = "URI" from rfl)]
  rw [pyReplace_noop (pyStrip x) ("[.]".data) (".".data) '[' rfl hL1]
  rw [pyReplace_noop (pyStrip x) ("[:]".data) (":".data) '[' rfl hL1]
  rw [pyReplace_noop (pyStrip x) ("[".data) [] '[' rfl hL1]
  rw [pyReplace_noop (pyStrip x) ("]".data) [] ']' rfl hR1]

theorem afterHost_nil (proto host : List Char) : afterHost proto host [] = none := rfl

theorem afterHost_colon (proto host r2 : List Char) :
    afterHost proto host (':' :: r2) = portAfterColon proto host r2 := rfl

theorem afterHost_other (proto host : List Char) (a : Char) (r2 : List Char)
    (ha : ¬(a = ':')) : afterHost proto host (a :: r2) = none := by
  show (if a = ':' then portAfterColon proto host r2 else none) = none
  rw [if_neg ha]

theorem https_not_prefix_http (W : List Char) :
    ("https://".data).isPrefixOf ("http://".data ++ W) = false := rfl

theorem http_isPrefix (W : List Char) :
    ("http://".data).isPrefixOf ("http://".data ++ W) = true :=
  List.isPrefixOf_iff_prefix.mpr (List.prefix_append _ _)

theorem findSub_https (X : List Char) :
    findSub ("https://".data ++ X) ("://".data) = some 5 := by
  change findSub ('h' :: ("ttps://".data ++ X)) ("://".data) = some 5
  rw [findSub_cons_neg 'h' ("ttps://".data ++ X) ("://".data) rfl]
  change (findSub ('t' :: ("tps://".data ++ X)) ("://".data)).map (· + 1) = some 5
  rw [findSub_cons_neg 't' ("tps://".data ++ X) ("://".data) rfl]
  change ((findSub ('t' :: ("ps://".data ++ X)) ("://".data)).map (· + 1)).map (· + 1)
      = some 5
  rw [findSub_cons_neg 't' ("ps://".data ++ X) ("://".data) rfl]
  change (((findSub ('p' :: ("s://".data ++ X)) ("://".data)).map (· + 1)).map
      (· + 1)).map (· + 1) = some 5
  rw [findSub_cons_neg 'p' ("s://".data ++ X) ("://".data) rfl]
  change ((((findSub ('s' :: ("://".data ++ X)) ("://".data)).map (· + 1)).map
      (· + 1)).map (· + 1)).map (· + 1) = some 5
  rw [findSub_cons_neg 's' ("://".data ++ X) ("://".data) rfl]
  change (((((findSub (':' :: ('/' :: ('/' :: X))) ("://".data)).map (· + 1)).map
      (· + 1)).map (· + 1)).map (· + 1)).map (· + 1) = some 5
  rw [findSub_cons_pos (':' :: ('/' :: ('/' :: X))) ("://".data)
    (List.isPrefixOf_iff_prefix.mpr (List.prefix_append ("://".data) X))]
  rfl

theorem findSub_isPrefix (s pat : List Char) :
    ∀ i, findSub s pat = some i → pat.isPrefixOf (s.drop i) = true := by
  induction s, pat using findSub.induct with
  | case1 s pat hp =>
    intro i h
    rw [findSub_cons_pos s pat hp] at h
    injection h with h'
    rw [← h']
    simpa using hp
  | case2 pat hp =>
    intro i h
    rw [findSub.eq_def] at h
    rw [if_neg hp] at h
    simp at h
  | case3 pat c rest hp ih =>
    intro i h
    rw [findSub_cons_neg c rest pat (by rw [← Bool.not_eq_true]; exact hp)] at h
    cases hr : findSub rest pat with
    | none => rw [hr] at h; simp at h
    | some j =>
      rw [hr] at h
      have h2 : some (j + 1) = some i := h
      injection h2 with h'
      rw [← h']
      exact ih j hr

theorem getLast?_of_suffix (a b : List Char) (h : a.IsSuffix b) (hne : a ≠ []) :
    b.getLast? = a.getLast? := by
  obtain ⟨p, rfl⟩ := h
  exact List.getLast?_append_of_ne_nil p hne

theorem all_takeWhile (p : Char → Bool) (l : List Char) :
    (l.takeWhile p).all p = true := by
  induction l with
  | nil => rfl
  | cons a t ih =>
    rw [List.takeWhile_cons]
    by_cases h : p a = true
    · rw [if_pos h]
      simp [h, ih]
    · rw [if_neg h]
      rfl

theorem portMatch_none_of_no_scheme (y : List Char)
    (hfs : findSub y ("://".data) = none) : portMatch y = none := by
  have h1 : ("https://".data).isPrefixOf y = false := by
    cases hb : ("https://".data).isPrefixOf y with
    | false => rfl
    | true =>
      obtain ⟨t, ht⟩ := List.isPrefixOf_iff_prefix.mp hb
      rw [← ht, findSub_https t] at hfs
      exact absurd hfs (by simp)
  have h2 : ("http://".data).isPrefixOf y = false := by
    cases hb : ("http://".data).isPrefixOf y with
    | false => rfl
    | true =>
      obtain ⟨t, ht⟩ := List.isPrefixOf_iff_prefix.mp hb
      rw [← ht, findSub_http t] at hfs
      exact absurd hfs (by simp)
  unfold portMatch
  simp only [h1, h2, Bool.false_eq_true, if_false]
  rfl

theorem portAfterColon_sound (proto host r2 proto2 host2 path : List Char)
    (h : portAfterColon proto host r2 = some (proto2, host2, path))
    (hws : ∀ c, r2.getLast? = some c → isPyWs c = false) :
    proto2 = proto ∧ host2 = host ∧
      (path = [] ∨ (path.head? = some '/' ∧ '\n' ∉ path ∧ path.IsSuffix r2)) := by
  unfold portAfterColon at h
  dsimp only at h
  by_cases hpe : r2.takeWhile isAsciiDigit = []
  · rw [if_pos hpe] at h
    exact absurd h (by simp)
  · rw [if_neg hpe] at h
    by_cases hte : r2.drop (r2.takeWhile isAsciiDigit).length = []
    · rw [if_pos hte] at h
      simp only [Option.some.injEq, Prod.mk.injEq] at h
      exact ⟨h.1.symm, h.2.1.symm, Or.inl h.2.2.symm⟩
    · rw [if_neg hte] at h
      by_cases htn : r2.drop (r2.takeWhile isAsciiDigit).length = ['\n']
      · rw [if_pos htn] at h
        simp only [Option.some.injEq, Prod.mk.injEq] at h
        exact ⟨h.1.symm, h.2.1.symm, Or.inl h.2.2.symm⟩
      · rw [if_neg htn] at h
        by_cases hhd : (r2.drop (r2.takeWhile isAsciiDigit).length).head? = some '/'
        · rw [if_pos hhd] at h
          by_cases hgl : (r2.drop (r2.takeWhile isAsciiDigit).length).getLast?
              = some '\n'
          · exfalso
            have hsuf : (r2.drop (r2.takeWhile isAsciiDigit).length).IsSuffix r2 :=
              List.drop_suffix _ _
            have hgel := getLast?_of_suffix _ r2 hsuf hte
            exact absurd (hws '\n' (hgel.trans hgl)) (by decide)
          · rw [if_neg hgl] at h
            by_cases hni : '\n' ∈ r2.drop (r2.takeWhile isAsciiDigit).length
            · rw [if_pos hni] at h
              exact absurd h (by simp)
            · rw [if_neg hni] at h
              simp only [Option.some.injEq, Prod.mk.injEq] at h
              obtain ⟨h1, h2, h3⟩ := h
              refine ⟨h1.symm, h2.symm, Or.inr ?_⟩
              rw [← h3]
              exact ⟨hhd, hni, List.drop_suffix _ _⟩
        · rw [if_neg hhd] at h
          exact absurd h (by simp)

theorem portMatch_http_sound (Z proto2 host2 path : List Char)
    (h : portMatch ("http://".data ++ Z) = some (proto2, host2, path))
    (hws : ∀ c, Z.getLast? = some c → isPyWs c = false) :
    proto2 = "http://".data ∧ host2 ≠ [] ∧ host2.all hostCls = true ∧
      (path = [] ∨ (path.head? = some '/' ∧ '\n' ∉ path ∧ path.IsSuffix Z)) := by
  unfold portMatch at h
  simp only [https_not_prefix_http Z, http_isPrefix Z, Bool.false_eq_true, if_false,
    eq_self_iff_true, if_true] at h
  rw [if_neg (show ¬(("http://".data : List Char) = []) from by decide)] at h
  rw [show ("http://".data ++ Z).drop 7 = Z from rfl] at h
  by_cases hhz : Z.takeWhile hostCls = []
  · rw [if_pos hhz] at h
    exact absurd h (by simp)
  · rw [if_neg hhz] at h
    cases hd : Z.drop (Z.takeWhile hostCls).length with
    | nil =>
      rw [hd, afterHost_nil] at h
      exact absurd h (by simp)
    | cons a r2 =>
      rw [hd] at h
      by_cases ha : a = ':'
      · subst ha
        rw [afterHost_colon] at h
        have hsufZ : r2.IsSuffix Z := by
          have h1 : (':' :: r2).IsSuffix Z := hd ▸ List.drop_suffix _ _
          exact (List.suffix_cons ':' r2).trans h1
        have hws2 : ∀ c, r2.getLast? = some c → isPyWs c = false := by
          intro c hc
          have hne : r2 ≠ [] := ne_nil_of_getLast? _ _ hc
          exact hws c ((getLast?_of_suffix r2 Z hsufZ hne).trans hc)
        obtain ⟨hp2, hh2, hpa⟩ := portAfterColon_sound _ _ _ _ _ _ h hws2
        refine ⟨hp2, ?_, ?_, ?_⟩
        · rw [hh2]; exact hhz
        · rw [hh2]; exact all_takeWhile hostCls Z
        · rcases hpa with rfl | ⟨hh, hn, hsuf⟩
          · exact Or.inl rfl
          · exact Or.inr ⟨hh, hn, hsuf.trans hsufZ⟩
      · rw [afterHost_other _ _ a r2 ha] at h
        exact absurd h (by simp)

theorem portMatch_http_none (host path : List Char) (hh : host ≠ [])
    (hall : host.all hostCls = true) (hpa : path = [] ∨ path.head? = some '/') :
    portMatch ("http://".data ++ (host ++ path)) = none := by
  unfold portMatch
  simp only [https_not_prefix_http (host ++ path), http_isPrefix (host ++ path),
    Bool.false_eq_true, if_false, eq_self_iff_true, if_true]
  rw [if_neg (show ¬(("http://".data : List Char) = []) from by decide)]
  rw [show ("http://".data ++ (host ++ path)).drop 7 = host ++ path from rfl]
  have htw : (host ++ path).takeWhile hostCls = host := by
    rcases hpa with rfl | hhd
    · rw [List.append_nil]
      exact takeWhile_all hostCls host hall
    · cases path with
      | nil =>
        rw [List.append_nil]
        exact takeWhile_all hostCls host hall
      | cons p0 pt =>
        have hp0 : p0 = '/' := by simpa using hhd
        subst hp0
        exact takeWhile_append_stop hostCls host '/' pt hall (by decide)
  rw [htw, if_neg hh, List.drop_left]
  rcases hpa with rfl | hhd
  · exact afterHost_nil _ _
  · cases path with
    | nil => exact afterHost_nil _ _
    | cons p0 pt =>
      have hp0 : p0 = '/' := by simpa using hhd
      subst hp0
      exact afterHost_other _ _ '/' pt (by decide)

theorem uriFix (s0 : List Char) (hs : pyStrip s0 = s0) (hL : '[' ∉ s0) (hR : ']' ∉ s0) :
    clean_ioc (portStrip (schemeFix s0)) "URI" = portStrip (schemeFix s0) := by
  have hws : ∀ c, s0.getLast? = some c → isPyWs c = false :=
    fun c hc => pyStrip_last? s0 c (by rw [hs]; exact hc)
  cases hfs : findSub s0 ("://".data) with
  | none =>
    have hsch : schemeFix s0 = s0 := by
      unfold schemeFix
      rw [hfs]
    have hps : portStrip s0 = s0 := by
      unfold portStrip
      rw [portMatch_none_of_no_scheme s0 hfs]
    rw [hsch, hps]
    rw [clean_ioc_eq_uri s0 hL hR, hs, hsch, hps]
  | some i =>
    obtain ⟨Z, hZ⟩ := List.isPrefixOf_iff_prefix.mp (findSub_isPrefix s0 ("://".data) i hfs)
    have hy : schemeFix s0 = "http://".data ++ Z := by
      unfold schemeFix
      rw [hfs]
      change "http".data ++ s0.drop i = "http://".data ++ Z
      rw [← hZ]
      rfl
    have hZsuf : Z.IsSuffix s0 :=
      (hZ ▸ List.suffix_append ("://".data) Z).trans (List.drop_suffix i s0)
    have hZlast : ∀ c, Z.getLast? = some c → isPyWs c = false := by
      intro c hc
      have hZne : Z ≠ [] := ne_nil_of_getLast? _ _ hc
      exact hws c ((getLast?_of_suffix Z s0 hZsuf hZne).trans hc)
    have hLZ : '[' ∉ Z := fun h => hL (hZsuf.sublist.mem h)
    have hRZ : ']' ∉ Z := fun h => hR (hZsuf.sublist.mem h)
    have hLy : '[' ∉ ("http://".data ++ Z) := by
      intro h
      rcases List.mem_append.mp h with h2 | h2
      · revert h2; decide
      · exact hLZ h2
    have hRy : ']' ∉ ("http://".data ++ Z) := by
      intro h
      rcases List.mem_append.mp h with h2 | h2
      · revert h2; decide
      · exact hRZ h2
    have hstry : pyStrip ("http://".data ++ Z) = "http://".data ++ Z := by
      apply pyStrip_noop
      · intro c hc
        rw [show ("http://".data ++ Z).head? = some 'h' from rfl] at hc
        injection hc with h'
        rw [← h']
        decide
      · intro c hc
        cases hZe : Z with
        | nil =>
          rw [hZe] at hc
          rw [show (("http://".data ++ ([] : List Char)).getLast?) = some '/'
            from by decide] at hc
          injection hc with h'
          rw [← h']
          decide
        | cons z0 zt =>
          rw [hZe] at hc
          rw [List.getLast?_append_of_ne_nil _ (by simp : (z0 :: zt) ≠ [])] at hc
          refine hZlast c ?_
          rw [hZe]
          exact hc
    have hschy : schemeFix ("http://".data ++ Z) = "http://".data ++ Z := by
      unfold schemeFix
      rw [findSub_http Z]
      rfl
    cases hpm : portMatch ("http://".data ++ Z) with
    | none =>
      have hps : portStrip ("http://".data ++ Z) = "http://".data ++ Z := by
        unfold portStrip
        rw [hpm]
      rw [hy, hps]
      rw [clean_ioc_eq_uri _ hLy hRy, hstry, hschy, hps]
    | some pm =>
      obtain ⟨proto2, host2, path⟩ := pm
      obtain ⟨hp2, hh2ne, hh2all, hpa⟩ := portMatch_http_sound Z proto2 host2 path hpm hZlast
      subst hp2
      have hps : portStrip ("http://".data ++ Z)
          = "http://".data ++ (host2 ++ path) := by
        unfold portStrip
        rw [hpm]
        rfl
      rw [hy, hps]
      have hLw : '[' ∉ ("http://".data ++ (host2 ++ path)) := by
        intro h
        rcases List.mem_append.mp h with h2 | h2
        · revert h2; decide
        · rcases List.mem_append.mp h2 with h3 | h3
          · exact absurd (List.all_eq_true.mp hh2all '[' h3) (by decide)
          · rcases hpa with rfl | ⟨_, _, hsuf⟩
            · simp at h3
            · exact hLZ (hsuf.sublist.mem h3)
      have hRw : ']' ∉ ("http://".data ++ (host2 ++ path)) := by
        intro h
        rcases List.mem_append.mp h with h2 | h2
        · revert h2; decide
        · rcases List.mem_append.mp h2 with h3 | h3
          · exact absurd (List.all_eq_true.mp hh2all ']' h3) (by decide)
          · rcases hpa with rfl | ⟨_, _, hsuf⟩
            · simp at h3
            · exact hRZ (hsuf.sublist.mem h3)
      have hstw : pyStrip ("http://".data ++ (host2 ++ path))
          = "http://".data ++ (host2 ++ path) := by
        apply pyStrip_noop
        · intro c hc
          rw [show ("http://".data ++ (host2 ++ path)).head? = some 'h' from rfl] at hc
          injection hc with h'
          rw [← h']
          decide
        · intro c hc
          have hne2 : host2 ++ path ≠ [] :=
            fun hcon => hh2ne (List.append_eq_nil.mp hcon).1
          rw [List.getLast?_append_of_ne_nil _ hne2] at hc
          rcases hpa with rfl | ⟨hh, _, hsuf⟩
          · rw [List.append_nil] at hc
            rcases List.mem_getLast?_eq_getLast hc with ⟨hne, hEq⟩
            have hcm : c ∈ host2 := hEq ▸ List.getLast_mem hne
            exact not_ws_of_hostCls c (List.all_eq_true.mp hh2all c hcm)
          · have hpne : path ≠ [] := by
              intro hcon
              rw [hcon] at hh
              simp at hh
            rw [List.getLast?_append_of_ne_nil _ hpne] at hc
            exact hZlast c ((getLast?_of_suffix path Z hsuf hpne).trans hc)
      have hschw : schemeFix ("http://".data ++ (host2 ++ path))
          = "http://".data ++ (host2 ++ path) := by
        unfold schemeFix
        rw [findSub_http (host2 ++ path)]
        rfl
      have hpmw : portMatch ("http://".data ++ (host2 ++ path)) = none := by
        apply portMatch_http_none host2 path hh2ne hh2all
        rcases hpa with rfl | ⟨hh, _, _⟩
        · exact Or.inl rfl
        · exact Or.inr hh
      have hps2 : portStrip ("http://".data ++ (host2 ++ path))
          = "http://".data ++ (host2 ++ path) := by
        unfold portStrip
        rw [hpmw]
      rw [clean_ioc_eq_uri _ hLw hRw, hstw, hschw, hps2]

unseal pyReplace collapseWs findSub pySet uriUnits uriSeek wordRuns emailDom dnsGroups stitch fileScan reScan uriScanPos in
/-- Claim C7 counterexample: on the input `a [` (category IP) the bracket
removal exposes a trailing space that only the next application's strip
removes, so normalize is not idempotent. -/
theorem c7_counterexample :
    clean_ioc (clean_ioc ("a [".data) "IP") "IP" ≠ clean_ioc ("a [".data) "IP" := by
  decide

/-- Claim C7 (amended): `clean_ioc` is idempotent on inputs that contain
no square bracket, for every category; with brackets the bracket-removal
step can expose boundary whitespace (or, in principle, fresh obfuscation
sequences), and idempotence fails (see the counterexample). -/
theorem c7_idempotent_on_bracket_free (x : List Char) (c : String)
    (hL : '[' ∉ x) (hR : ']' ∉ x) :
    clean_ioc (clean_ioc x c) c = clean_ioc x c := by
  by_cases hf : c = "File"
  · subst hf
    rw [clean_ioc_eq_file x hL hR]
    have hLw : '[' ∉ collapseWs (pyStrip x) := by
      intro h
      rcases mem_collapseWs _ '[' h with h2 | h2
      · exact absurd h2 (by decide)
      · exact hL (mem_pyStrip x '[' h2)
    have hRw : ']' ∉ collapseWs (pyStrip x) := by
      intro h
      rcases mem_collapseWs _ ']' h with h2 | h2
      · exact absurd h2 (by decide)
      · exact hR (mem_pyStrip x ']' h2)
    rw [clean_ioc_eq_file _ hLw hRw]
    have hstripw : pyStrip (collapseWs (pyStrip x)) = collapseWs (pyStrip x) := by
      apply pyStrip_noop
      · intro d hd
        cases hsx : (pyStrip x).head? with
        | none =>
          have hnil : pyStrip x = [] := by
            cases hpx : pyStrip x with
            | nil => rfl
            | cons a t => rw [hpx] at hsx; simp at hsx
          rw [hnil, collapseWs_nil] at hd
          simp at hd
        | some d0 =>
          have hnw : isPyWs d0 = false := pyStrip_head? x d0 hsx
          rw [collapseWs_head (pyStrip x) d0 hsx hnw] at hd
          injection hd with h'
          rw [← h']
          exact hnw
      · intro d hd
        cases hsx : (pyStrip x).getLast? with
        | none =>
          have hnil : pyStrip x = [] := by
            cases hpx : pyStrip x with
            | nil => rfl
            | cons a t => rw [hpx] at hsx; simp at hsx
          rw [hnil, collapseWs_nil] at hd
          simp at hd
        | some d0 =>
          have hnw : isPyWs d0 = false := pyStrip_last? x d0 hsx
          rw [collapseWs_getLast (pyStrip x) d0 hsx hnw] at hd
          injection hd with h'
          rw [← h']
          exact hnw
    rw [hstripw, collapseWs_idem]
  · by_cases hu : c = "URI"
    · subst hu
      rw [clean_ioc_eq_uri x hL hR]
      exact uriFix (pyStrip x) (pyStrip_idem x)
        (fun h => hL (mem_pyStrip x '[' h)) (fun h => hR (mem_pyStrip x ']' h))
    · rw [clean_ioc_eq_other x c hf hu hL hR]
      rw [clean_ioc_eq_other (pyStrip x) c hf hu
        (fun h => hL (mem_pyStrip x '[' h)) (fun h => hR (mem_pyStrip x ']' h))]
      exact pyStrip_idem x

unseal pyReplace collapseWs findSub pySet uriUnits uriSeek wordRuns emailDom dnsGroups stitch fileScan reScan uriScanPos in
/-- Witness for the amended C7 theorem: concrete bracket-free inputs, one
through the plain stage (DNS), one through the URI normalizer. -/
theorem c7_idempotent_on_bracket_free_witness :
    ('[' ∉ (" a ".data) ∧ ']' ∉ (" a ".data)) ∧
    clean_ioc (clean_ioc (" a ".data) "DNS") "DNS" = clean_ioc (" a ".data) "DNS" ∧
    clean_ioc (clean_ioc ("http://e.x:1/p y".data) "URI") "URI"
      = clean_ioc ("http://e.x:1/p y".data) "URI" :=
  ⟨⟨by decide, by decide⟩,
   c7_idempotent_on_bracket_free (" a ".data) "DNS" (by decide) (by decide),
   c7_idempotent_on_bracket_free ("http://e.x:1/p y".data) "URI"
     (by decide) (by decide)⟩

unseal pyReplace collapseWs findSub pySet uriUnits uriSeek wordRuns emailDom dnsGroups stitch fileScan reScan uriScanPos in
/-- Claim C6 counterexample: in the two-URI host group
`http://e.com`, `http://e.com/x` the pathless member is assigned the bare
domain `e.com`, not its full URI value `http://e.com` as the claim
requires when no distinguishing path prefix exists. -/
theorem c6_counterexample :
    dget (smart_clean_uri [("u1".data, "http://e.com".data),
        ("u2".data, "http://e.com/x".data)]) ("http://e.com".data)
      = some ("e.com".data) ∧
    ("e.com".data : List Char) ≠ "http://e.com".data := by
  exact ⟨by decide, by decide⟩

unseal pyReplace collapseWs findSub pySet uriUnits uriSeek wordRuns emailDom dnsGroups stitch fileScan reScan uriScanPos in
/-- Claim C6 (amended): over empty path segments the shortener keeps the
running value, so a pathless member of a multi-URI group receives the
bare domain (never its full URI); the first non-empty segment whose
candidate `domain/seg1...` is not a string prefix of any sibling is
returned at once — and since candidates are scheme-less while the stored
sibling URIs keep their scheme, the check never fires on http-scheme
groups, making `domain + first segment` the de-facto assignment;
single-URI host groups are assigned the domain alone, as claimed. -/
theorem c6_group_assignment :
    (∀ (domain uri : List Char) (group : List (List Char))
        (parts : List (List Char)),
      parts.all (· = ([] : List Char)) = true →
      ∀ seen cur, loopAssign domain uri group parts seen cur = cur) ∧
    (∀ (domain uri : List Char) (group : List (List Char)) (p : List Char)
        (rest seen : List (List Char)) (cur : List Char), p ≠ [] →
      notUniqueIn (domain ++ '/' :: joinSlash (seen ++ [p])) uri group = false →
      loopAssign domain uri group (p :: rest) seen cur
        = domain ++ '/' :: joinSlash (seen ++ [p])) ∧
    (∀ orig u, smart_clean_uri [(orig, u)] = [(u, domainOf u)]) ∧
    (smart_clean_uri [("o1".data, "http://e.com".data),
        ("o2".data, "http://e.com/a/b".data)]
      = [("http://e.com".data, "e.com".data),
         ("http://e.com/a/b".data, "e.com/a".data)]) := by
  refine ⟨?_, ?_, ?_, by decide⟩
  · intro domain uri group parts
    induction parts with
    | nil => intro _ seen cur; rfl
    | cons p rest ih =>
      intro hall seen cur
      simp only [List.all_cons, Bool.and_eq_true, decide_eq_true_eq] at hall
      rw [loopAssign]
      dsimp only
      rw [if_neg (by simp [hall.1])]
      exact ih hall.2 _ _
  · intro domain uri group p rest seen cur hp hnu
    rw [loopAssign]
    dsimp only
    rw [if_pos hp]
    simp only [hnu, Bool.false_eq_true, if_false]
  · intro orig u
    rfl

/-- Witness for the amended C6 theorem: a run over empty segments, a
first-segment assignment with a vacuous sibling check, and a singleton
host group. -/
theorem c6_group_assignment_witness :
    loopAssign ("d".data) ("u".data) [] [[], []] [] ("d".data) = "d".data ∧
    loopAssign ("e.com".data) ("http://e.com/x".data) ["http://e.com".data]
        ["x".data] [] ("e.com".data)
      = "e.com".data ++ '/' :: joinSlash ([] ++ ["x".data]) ∧
    smart_clean_uri [("o".data, "http://a.b".data)]
      = [("http://a.b".data, domainOf ("http://a.b".data))] := by
  refine ⟨c6_group_assignment.1 _ _ _ _ (by decide) _ _,
    c6_group_assignment.2.1 _ _ _ _ _ _ _ (by decide) (by decide),
    c6_group_assignment.2.2.1 _ _⟩
